import Mathlib

/-!
# golang-mariadbconsole: a verification development of `main.go`

A shallow embedding of the collector (`collectMetrics` and the metric sources it calls),
of `extractTableName` and of the renderer `drawUI`, followed by the theorems that settle
the claims C1 .. C10 of the specification.

Conventions of the embedding:

* Go `int`, `int64` are `Int`, `uint64` is `Nat`; no arithmetic of the program can overflow
  (the only arithmetic is `i+1` on slice indices and `len`).
* A Go `error` is `Option String` (`none` is `nil`); a call of `QueryRow(..).Scan(..)` or
  `rows.Scan(..)` is `Except String v`: a scan that returns an error has not written its
  destinations (so it is in database/sql for a missing row, a wrong number of columns and
  a conversion error; an error of the closing of the rows after the assignment is not
  modelled).
* A run-time panic of a cycle is `Except.error msg` of `collectMetricsCycle`.
* `log.Println` writes to the log stream only and is not part of the state.
* float64 arithmetic, the `%.2f` verb, `strings.ToUpper` and `sort.Slice` are library
  functions; they are the fields of `Lib`, and the theorems hold whatever they compute,
  `sort.Slice` being asked to keep its contract (`SortContract`) where a claim is about
  the order of the output. `sort.Slice` is also modelled in full (`goSortSlice`, the
  pdqsort of the Go standard library since Go 1.19) and proved to keep that contract
  (`goSortSlice_sorts`); what a claim says about records of equal key is settled on it.
* Strings are sequences of Unicode characters (a Go string that is not valid UTF-8 has
  no counterpart).
-/

namespace MariaDBConsole

/-! ## Library layer -/

/-- Library functions that the program calls and whose values are left open:
float64 (with the two scalings the program computes and the `%.2f` verb of `fmt.Sprintf`),
`strings.ToUpper` and `sort.Slice`. -/
structure Lib where
  /-- Go's float64 -/
  Float64 : Type
  /-- The text `fmt.Sprintf("%.2f", x)` -/
  sprintf2f : Float64 → String
  /-- The value `float64(n)/1024/1024/1024` of a uint64 `n` -/
  toGiB : Nat → Float64
  /-- The value `float64(n)/1024/1024` of an int64 `n` -/
  toMiB : Int → Float64
  /-- The function `strings.ToUpper` -/
  toUpper : String → String
  /-- The function `sort.Slice`, given the order `less` on elements that the closure passed
  to it computes from two indices; its result is the slice after the call -/
  sortSlice : {α : Type} → (α → α → Bool) → List α → List α

/-- The text `fmt.Sprintf("%d", n)`: decimal digits, with a minus sign when negative. -/
def sprintfD (n : Int) : String := toString n

/-- Go's `unicode.IsSpace`: the Latin-1 spaces `\t \n \v \f \r`, space, U+0085, U+00A0 and
the code points with the White_Space property above Latin-1. -/
def unicodeIsSpace (c : Char) : Bool :=
  c == '\t' || c == '\n' || c == '\x0b' || c == '\x0c' || c == '\r' || c == ' '
    || c.val == 0x85 || c.val == 0xA0 || c.val == 0x1680
    || (0x2000 ≤ c.val && c.val ≤ 0x200A)
    || c.val == 0x2028 || c.val == 0x2029 || c.val == 0x202F || c.val == 0x205F
    || c.val == 0x3000

/-- The scan of `strings.Fields`: `cur` holds, reversed, the characters of the field being
read; a white space character closes a non-empty field. -/
def fieldsFrom : List Char → List Char → List String
  | [], cur => if cur.isEmpty then [] else [String.mk cur.reverse]
  | c :: cs, cur =>
    if unicodeIsSpace c then
      if cur.isEmpty then fieldsFrom cs [] else String.mk cur.reverse :: fieldsFrom cs []
    else fieldsFrom cs (c :: cur)

/-- Go's `strings.Fields`: the maximal runs of non-space characters, in order. -/
def stringsFields (s : String) : List String := fieldsFrom s.data []

/-- Go's `strings.TrimSpace`: leading and trailing white space removed. -/
def stringsTrimSpace (s : String) : String :=
  String.mk ((s.data.dropWhile unicodeIsSpace).reverse.dropWhile unicodeIsSpace).reverse

/-- Upper case of an ASCII letter; every other character is left as it is. -/
def asciiUpper (c : Char) : Char :=
  if 'a' ≤ c ∧ c ≤ 'z' then Char.ofNat (c.toNat - 32) else c

/-- What `strings.ToUpper` does on a string of ASCII characters. -/
def toUpperASCII (s : String) : String := String.mk (s.data.map asciiUpper)

/-! ### `sort.Slice` (package sort of the Go standard library, pdqsort, Go 1.19 and later)

The slice is a list; `Less(i, j)` and `Swap(i, j)` of the library's `lessSwap` act on
positions, which the library keeps inside the slice (on a position outside it, where Go
would panic, `swap` leaves the slice as it is and `lessAt` is false). Loops carry a fuel
argument, set by the callers to a bound on their iterations; `goSortSlice_sorts` shows
that the fuel given is enough. No theorem depends on the numbers that `xorshiftNext`
produces. -/

section SortSlice

variable {α : Type}

/-- The call `data.Swap(i, j)`. -/
def swap (data : List α) (i j : Nat) : List α :=
  match data[i]?, data[j]? with
  | some x, some y => (data.set i y).set j x
  | _, _ => data

/-- The call `data.Less(i, j)`. -/
def lessAt (less : α → α → Bool) (data : List α) (i j : Nat) : Bool :=
  match data[i]?, data[j]? with
  | some x, some y => less x y
  | _, _ => false

/-- The inner loop of `insertionSort_func`:
`for j := i; j > a && data.Less(j, j-1); j-- { data.Swap(j, j-1) }`. -/
def insertionInner (less : α → α → Bool) (a : Nat) : Nat → List α → List α
  | 0, data => data
  | j + 1, data =>
    if a < j + 1 && lessAt less data (j + 1) j then
      insertionInner less a j (swap data (j + 1) j)
    else data

/-- The outer loop of `insertionSort_func`, from `i` on. -/
def insertionOuter (less : α → α → Bool) (a b : Nat) : Nat → Nat → List α → List α
  | 0, _, data => data
  | fuel + 1, i, data =>
    if i < b then insertionOuter less a b fuel (i + 1) (insertionInner less a i data)
    else data

/-- The function `insertionSort_func(data, a, b)`. -/
def insertionSort (less : α → α → Bool) (data : List α) (a b : Nat) : List α :=
  insertionOuter less a b (b - a) (a + 1) data

/-- The function `siftDown_func(data, lo, hi, first)`, its loop from `root` on. -/
def siftDown (less : α → α → Bool) (hi first : Nat) : Nat → Nat → List α → List α
  | 0, _, data => data
  | fuel + 1, root, data =>
    if hi ≤ 2 * root + 1 then data
    else
      let child :=
        if 2 * root + 2 < hi && lessAt less data (first + (2 * root + 1)) (first + (2 * root + 2))
        then 2 * root + 2 else 2 * root + 1
      if !lessAt less data (first + root) (first + child) then data
      else siftDown less hi first fuel child (swap data (first + root) (first + child))

/-- The first loop of `heapSort_func`: `for i := (hi - 1) / 2; i >= 0; i--`. -/
def heapBuild (less : α → α → Bool) (hi first : Nat) : Nat → List α → List α
  | 0, data => siftDown less hi first hi 0 data
  | i + 1, data => heapBuild less hi first i (siftDown less hi first hi (i + 1) data)

/-- The second loop of `heapSort_func`: `for i := hi - 1; i >= 0; i--`. -/
def heapPop (less : α → α → Bool) (first : Nat) : Nat → List α → List α
  | 0, data => siftDown less 0 first 0 0 (swap data first first)
  | i + 1, data =>
    heapPop less first i (siftDown less (i + 1) first (i + 1) 0 (swap data first (first + (i + 1))))

/-- The function `heapSort_func(data, a, b)`. -/
def heapSort (less : α → α → Bool) (data : List α) (a b : Nat) : List α :=
  if b - a = 0 then data
  else heapPop less a (b - a - 1) (heapBuild less (b - a) a ((b - a - 1) / 2) data)

/-- Number of bits of `n`, by repeated halving. -/
def bitsLenAux : Nat → Nat → Nat
  | 0, _ => 0
  | fuel + 1, n => if n = 0 then 0 else bitsLenAux fuel (n / 2) + 1

/-- Go's `bits.Len`. -/
def bitsLen (n : Nat) : Nat := bitsLenAux n n

/-- The method `Next` of the library's `xorshift` generator, a uint64, with the shifts 13,
17 and 5. The generator only picks the positions that `breakPatterns_func` swaps. -/
def xorshiftNext (r : Nat) : Nat :=
  let r1 := r ^^^ ((r <<< 13) % 2 ^ 64)
  let r2 := r1 ^^^ (r1 >>> 17)
  r2 ^^^ ((r2 <<< 5) % 2 ^ 64)

/-- The loop of `breakPatterns_func`, three swaps at pseudo-random positions. -/
def breakPatternsLoop (a length modulus idx : Nat) : Nat → Nat → Nat → List α → List α
  | 0, _, _, data => data
  | fuel + 1, i, random, data =>
    let random := xorshiftNext random
    let other := random % modulus
    let other := if length ≤ other then other - length else other
    breakPatternsLoop a length modulus idx fuel (i + 1) random (swap data (idx - 1 + i) (a + other))

/-- The function `breakPatterns_func(data, a, b)`. -/
def breakPatterns (data : List α) (a b : Nat) : List α :=
  if 8 ≤ b - a then
    breakPatternsLoop a (b - a) (2 ^ bitsLen (b - a)) (a + (b - a) / 4 * 2 - 1) 3 0 (b - a) data
  else data

/-- The library's `sortedHint`. -/
inductive SortedHint where
  | unknownHint
  | increasingHint
  | decreasingHint
deriving DecidableEq, Repr

/-- The function `order2_func`: the two indices in order, and the swap count. -/
def order2 (less : α → α → Bool) (data : List α) (a b swaps : Nat) : Nat × Nat × Nat :=
  if lessAt less data b a then (b, a, swaps + 1) else (a, b, swaps)

/-- The function `median_func`: the index of the median of three, and the swap count. -/
def median (less : α → α → Bool) (data : List α) (a b c swaps : Nat) : Nat × Nat :=
  let r1 := order2 less data a b swaps
  let r2 := order2 less data r1.2.1 c r1.2.2
  let r3 := order2 less data r1.1 r2.1 r2.2.2
  (r3.2.1, r3.2.2)

/-- The function `medianAdjacent_func`. -/
def medianAdjacent (less : α → α → Bool) (data : List α) (a swaps : Nat) : Nat × Nat :=
  median less data (a - 1) a (a + 1) swaps

/-- The function `choosePivot_func(data, a, b)`. -/
def choosePivot (less : α → α → Bool) (data : List α) (a b : Nat) : Nat × SortedHint :=
  let l := b - a
  let i := a + l / 4 * 1
  let j := a + l / 4 * 2
  let k := a + l / 4 * 3
  let r :=
    if 8 ≤ l then
      if 50 ≤ l then
        let ri := medianAdjacent less data i 0
        let rj := medianAdjacent less data j ri.2
        let rk := medianAdjacent less data k rj.2
        median less data ri.1 rj.1 rk.1 rk.2
      else median less data i j k 0
    else (j, 0)
  if r.2 = 0 then (r.1, SortedHint.increasingHint)
  else if r.2 = 12 then (r.1, SortedHint.decreasingHint)
  else (r.1, SortedHint.unknownHint)

/-- The function `reverseRange_func`, its loop `for i < j`. -/
def reverseLoop : Nat → Nat → Nat → List α → List α
  | 0, _, _, data => data
  | fuel + 1, i, j, data =>
    if i < j then reverseLoop fuel (i + 1) (j - 1) (swap data i j) else data

/-- The function `reverseRange_func(data, a, b)`. -/
def reverseRange (data : List α) (a b : Nat) : List α :=
  reverseLoop (b - a) a (b - 1) data

/-- The loop `for i < b && !data.Less(i, i-1) { i++ }` of `partialInsertionSort_func`. -/
def scanSorted (less : α → α → Bool) (data : List α) (b : Nat) : Nat → Nat → Nat
  | 0, i => i
  | fuel + 1, i =>
    if i < b && !lessAt less data i (i - 1) then scanSorted less data b fuel (i + 1) else i

/-- The loop `for j := i - 1; j >= 1; j--` of `partialInsertionSort_func`, which shifts
the smaller element to the left. -/
def shiftLeft (less : α → α → Bool) : Nat → List α → List α
  | 0, data => data
  | j + 1, data =>
    if !lessAt less data (j + 1) j then data
    else shiftLeft less j (swap data (j + 1) j)

/-- The loop `for j := i + 1; j < b; j++` of `partialInsertionSort_func`, which shifts
the greater element to the right. -/
def shiftRight (less : α → α → Bool) (b : Nat) : Nat → Nat → List α → List α
  | 0, _, data => data
  | fuel + 1, j, data =>
    if j < b then
      if !lessAt less data j (j - 1) then data
      else shiftRight less b fuel (j + 1) (swap data j (j - 1))
    else data

/-- The loop `for j := 0; j < maxSteps; j++` of `partialInsertionSort_func`, with `steps`
iterations left. -/
def partialInsertionLoop (less : α → α → Bool) (a b : Nat) :
    Nat → Nat → List α → List α × Bool
  | 0, _, data => (data, false)
  | steps + 1, i, data =>
    let i := scanSorted less data b (b - i) i
    if i = b then (data, true)
    else if b - a < 50 then (data, false)
    else
      let data := swap data i (i - 1)
      let data := if 2 ≤ i - a then shiftLeft less (i - 1) data else data
      let data := if 2 ≤ b - i then shiftRight less b (b - i) (i + 1) data else data
      partialInsertionLoop less a b steps i data

/-- The function `partialInsertionSort_func(data, a, b)`: the slice after the call and
whether it is sorted. -/
def partialInsertionSort (less : α → α → Bool) (data : List α) (a b : Nat) : List α × Bool :=
  partialInsertionLoop less a b 5 (a + 1) data

/-- The loop `for i <= j && data.Less(i, a) { i++ }` of `partition_func`. -/
def scanUp (less : α → α → Bool) (data : List α) (a j : Nat) : Nat → Nat → Nat
  | 0, i => i
  | fuel + 1, i =>
    if i ≤ j && lessAt less data i a then scanUp less data a j fuel (i + 1) else i

/-- The loop `for i <= j && !data.Less(j, a) { j-- }` of `partition_func`; positions are
kept one up (`j1` is `j + 1`) so that `j` may fall below the first position. -/
def scanDown (less : α → α → Bool) (data : List α) (a i : Nat) : Nat → Nat
  | 0 => 0
  | j + 1 =>
    if i ≤ j && !lessAt less data j a then scanDown less data a i j else j + 1

/-- The loop `for { ... }` of `partition_func`; `j1` is `j + 1`. The result is the slice
and `j + 1` at the `break`. -/
def partitionLoop (less : α → α → Bool) (a : Nat) : Nat → Nat → Nat → List α → List α × Nat
  | 0, _, j1, data => (data, j1)
  | fuel + 1, i, j1, data =>
    let i := scanUp less data a (j1 - 1) (j1 - i) i
    let j1 := scanDown less data a i j1
    if j1 ≤ i then (data, j1)
    else partitionLoop less a fuel (i + 1) (j1 - 1) (swap data i (j1 - 1))

/-- The function `partition_func(data, a, b, pivot)`: the slice, the new position of the
pivot and whether the slice was already partitioned. -/
def partition (less : α → α → Bool) (data : List α) (a b pivot : Nat) : List α × Nat × Bool :=
  let data := swap data a pivot
  let i := scanUp less data a (b - 1) (b - (a + 1)) (a + 1)
  let j1 := scanDown less data a i b
  if j1 ≤ i then (swap data (j1 - 1) a, j1 - 1, true)
  else
    let data := swap data i (j1 - 1)
    let r := partitionLoop less a (b - a) (i + 1) (j1 - 1) data
    (swap r.1 (r.2 - 1) a, r.2 - 1, false)

/-- The loop `for i <= j && !data.Less(a, i) { i++ }` of `partitionEqual_func`. -/
def scanUpEq (less : α → α → Bool) (data : List α) (a j : Nat) : Nat → Nat → Nat
  | 0, i => i
  | fuel + 1, i =>
    if i ≤ j && !lessAt less data a i then scanUpEq less data a j fuel (i + 1) else i

/-- The loop `for i <= j && data.Less(a, j) { j-- }` of `partitionEqual_func`; `j1` is
`j + 1`. -/
def scanDownEq (less : α → α → Bool) (data : List α) (a i : Nat) : Nat → Nat
  | 0 => 0
  | j + 1 =>
    if i ≤ j && lessAt less data a j then scanDownEq less data a i j else j + 1

/-- The loop of `partitionEqual_func`; the result is the slice and `i` at the `break`. -/
def partitionEqualLoop (less : α → α → Bool) (a : Nat) :
    Nat → Nat → Nat → List α → List α × Nat
  | 0, i, _, data => (data, i)
  | fuel + 1, i, j1, data =>
    let i := scanUpEq less data a (j1 - 1) (j1 - i) i
    let j1 := scanDownEq less data a i j1
    if j1 ≤ i then (data, i)
    else partitionEqualLoop less a fuel (i + 1) (j1 - 1) (swap data i (j1 - 1))

/-- The function `partitionEqual_func(data, a, b, pivot)`. -/
def partitionEqual (less : α → α → Bool) (data : List α) (a b pivot : Nat) : List α × Nat :=
  partitionEqualLoop less a (b - a) (a + 1) b (swap data a pivot)

/-- The function `pdqsort_func(data, a, b, limit)`: one turn of its loop per unit of
fuel, with the loop variables `wasBalanced` and `wasPartitioned`. -/
def pdqsort (less : α → α → Bool) :
    Nat → List α → Nat → Nat → Nat → Bool → Bool → List α
  | 0, data, _, _, _, _, _ => data
  | fuel + 1, data, a, b, limit, wasBalanced, wasPartitioned =>
    if b - a ≤ 12 then insertionSort less data a b
    else if limit = 0 then heapSort less data a b
    else
      let data1 := if wasBalanced then data else breakPatterns data a b
      let limit1 := if wasBalanced then limit else limit - 1
      let ph := choosePivot less data1 a b
      let data2 := if ph.2 = SortedHint.decreasingHint then reverseRange data1 a b else data1
      let pivot := if ph.2 = SortedHint.decreasingHint then (b - 1) - (ph.1 - a) else ph.1
      let hint := if ph.2 = SortedHint.decreasingHint then SortedHint.increasingHint else ph.2
      let ps :=
        if wasBalanced && wasPartitioned && hint = SortedHint.increasingHint then
          partialInsertionSort less data2 a b
        else (data2, false)
      if ps.2 then ps.1
      else if 0 < a && !lessAt less ps.1 (a - 1) pivot then
        let pe := partitionEqual less ps.1 a b pivot
        pdqsort less fuel pe.1 pe.2 b limit1 wasBalanced wasPartitioned
      else
        let pt := partition less ps.1 a b pivot
        let mid := pt.2.1
        if mid - a < b - mid then
          pdqsort less fuel (pdqsort less fuel pt.1 a mid limit1 true true) (mid + 1) b limit1
            (decide ((b - a) / 8 ≤ mid - a)) pt.2.2
        else
          pdqsort less fuel (pdqsort less fuel pt.1 (mid + 1) b limit1 true true) a mid limit1
            (decide ((b - a) / 8 ≤ b - mid)) pt.2.2

/-- The function `sort.Slice(x, less)` of Go 1.19 and later:
`pdqsort_func(lessSwap{less, swap}, 0, length, bits.Len(uint(length)))`. -/
def goSortSlice (less : α → α → Bool) (data : List α) : List α :=
  pdqsort less (data.length + 1) data 0 data.length (bitsLen data.length) true true

end SortSlice

/-- Two decimal digits of a number below 100. -/
def twoDigits (n : Nat) : String :=
  if n < 10 then "0" ++ toString n else toString n

/-- A library instance on which the model can be evaluated: float64 is replaced by a count
of hundredths (fixed point, exact on values with two decimals, scalings truncated),
`strings.ToUpper` by its restriction to ASCII, and `sort.Slice` is the pdqsort of Go 1.19
and later. -/
def evalLib : Lib where
  Float64 := Nat
  sprintf2f := fun n => toString (n / 100) ++ "." ++ twoDigits (n % 100)
  toGiB := fun n => n * 100 / (1024 * 1024 * 1024)
  toMiB := fun n => n.toNat * 100 / (1024 * 1024)
  toUpper := toUpperASCII
  sortSlice := goSortSlice

/-! ## Table-name extraction (`extractTableName`, main.go 315-325) -/

/-- The loop `for i, word := range words` of `extractTableName`, from index `i` on, with
the words still to visit in the second argument. -/
def extractTableNameLoop (lib : Lib) (words : List String) : List String → Nat → String
  | [], _ => "Unknown"
  | word :: rest, i =>
    if lib.toUpper word == "FROM" || lib.toUpper word == "INTO"
        || lib.toUpper word == "UPDATE" then
      if h : i + 1 < words.length then words[i + 1]
      else extractTableNameLoop lib words rest (i + 1)
    else extractTableNameLoop lib words rest (i + 1)

/-- The function `extractTableName` of main.go. -/
def extractTableName (lib : Lib) (query : String) : String :=
  extractTableNameLoop lib (stringsFields query) (stringsFields query) 0

/-- A word that equals FROM, INTO or UPDATE once upper-cased. -/
def IsKeyword (lib : Lib) (word : String) : Prop :=
  lib.toUpper word = "FROM" ∨ lib.toUpper word = "INTO" ∨ lib.toUpper word = "UPDATE"

instance (lib : Lib) (word : String) : Decidable (IsKeyword lib word) := by
  unfold IsKeyword; infer_instance

/-! ## Snapshot and metric sources -/

/-- The package-level variables of main.go that hold the metrics. -/
structure Snapshot where
  connectionCount : Int
  replicationStatus : String
  hostname : String
  ipAddress : String
  dbVersion : String
  memoryUsage : String
  cpuUsage : String
  diskAvailable : String
  diskUsage : String
  binlogSizes : String
  dbCounts : String
  tableCounts : String
  slowQueries : String
  selectCount : Int
  insertCount : Int
  updateCount : Int
  deleteCount : Int
  topOperations : String
deriving DecidableEq, Repr

/-- Go's `error`: `none` is `nil`. -/
abbrev GoError := Option String

/-- The fields of gopsutil's `mem.VirtualMemoryStat` that the program reads. -/
structure VirtualMemoryStat (F : Type) where
  UsedPercent : F
  Total : Nat

/-- The fields of gopsutil's `disk.UsageStat` that the program reads. -/
structure UsageStat (F : Type) where
  Free : Nat
  UsedPercent : F

/-- What the program asks of a `net.Addr`: whether it is a `*net.IPNet` and, of its IP,
`IsLoopback()`, `To4() != nil` and `String()`. -/
structure Addr where
  isIPNet : Bool
  isLoopback : Bool
  isV4 : Bool
  text : String
deriving DecidableEq, Repr

/-- The outcome of every source call of one cycle of `collectMetrics`, in the types the
calls return: a pair `(value, error)` for a Go call returning both, `Except` for a `Scan`,
and for a `db.Query` the rows, each with the outcome of its own `rows.Scan`. -/
structure Sources (lib : Lib) where
  /-- The call `cpu.Percent(0, false)` -/
  cpuPercent : List lib.Float64 × GoError
  /-- The call `mem.VirtualMemory()`; `none` is the nil pointer -/
  virtualMemory : Option (VirtualMemoryStat lib.Float64) × GoError
  /-- The scan of `SHOW STATUS LIKE 'Threads_connected'` -/
  threadsConnected : Except String Int
  /-- The scan of `SHOW SLAVE STATUS` -/
  slaveStatus : Except String String
  /-- The scan of `SELECT VERSION()` -/
  version : Except String String
  /-- The call `os.Hostname()` -/
  osHostname : String × GoError
  /-- The call `net.InterfaceAddrs()` -/
  interfaceAddrs : List Addr × GoError
  /-- The call `disk.Usage("/")`; `none` is the nil pointer -/
  diskUsage : Option (UsageStat lib.Float64) × GoError
  /-- The query `SHOW BINARY LOGS` -/
  binaryLogs : Except String (List (Except String (String × Int)))
  /-- The query `SHOW DATABASES` -/
  databases : Except String (List (Except String String))
  /-- The scan of `SELECT COUNT(*) FROM information_schema.tables ...` for a schema -/
  tableCount : String → Except String Int
  /-- The processlist query of `getTopSlowQueries` -/
  slowProcesses : Except String (List (Except String (Int × String × Int)))
  /-- The scan of `SHOW GLOBAL STATUS LIKE 'Com_select'` -/
  comSelect : Except String Int
  /-- The scan of `SHOW GLOBAL STATUS LIKE 'Com_insert'` -/
  comInsert : Except String Int
  /-- The scan of `SHOW GLOBAL STATUS LIKE 'Com_update'` -/
  comUpdate : Except String Int
  /-- The scan of `SHOW GLOBAL STATUS LIKE 'Com_delete'` -/
  comDelete : Except String Int
  /-- The processlist query of `getTopOperations` -/
  topProcesses : Except String (List (Except String (Int × String × Int × String)))

/-- A `Scan` that returned an error. -/
def Failed {α : Type} (r : Except String α) : Prop := ∃ e, r = Except.error e


/-! ## Metric sources (main.go 142-311) -/

/-- The loop `for _, addr := range addrs` of `getLocalIP`. -/
def getLocalIPLoop : List Addr → String × GoError
  | [] => ("", some "could not determine local IP address")
  | addr :: rest =>
    if addr.isIPNet && !addr.isLoopback then
      if addr.isV4 then (addr.text, none) else getLocalIPLoop rest
    else getLocalIPLoop rest

/-- The function `getLocalIP` of main.go. -/
def getLocalIP (addrs : List Addr × GoError) : String × GoError :=
  match addrs.2 with
  | some err => ("", some err)
  | none => getLocalIPLoop addrs.1

/-- An element of the slice `logs` of `getLargestBinlogs`. -/
structure BinlogRec where
  Name : String
  Size : Int
deriving DecidableEq, Repr

/-- The loop `for rows.Next()` of `getLargestBinlogs`: a row whose scan fails is skipped. -/
def scanBinlogs : List (Except String (String × Int)) → List BinlogRec → List BinlogRec
  | [], logs => logs
  | Except.ok (name, size) :: rows, logs => scanBinlogs rows (logs ++ [⟨name, size⟩])
  | Except.error _ :: rows, logs => scanBinlogs rows logs

/-- The order passed to `sort.Slice` in `getLargestBinlogs`: `logs[i].Size > logs[j].Size`. -/
def binlogLess (x y : BinlogRec) : Bool := decide (x.Size > y.Size)

/-- The display line of a binlog: `fmt.Sprintf("%s: %.2f MB\n", log.Name, ...)`. -/
def binlogLine (lib : Lib) (log : BinlogRec) : String :=
  log.Name ++ ": " ++ lib.sprintf2f (lib.toMiB log.Size) ++ " MB\n"

/-- The loop `for i, log := range logs` of `getLargestBinlogs`, from index `i` on, with
the text built so far. -/
def renderBinlogs (lib : Lib) (limit : Int) : List BinlogRec → Nat → String → String
  | [], _, result => result
  | log :: rest, i, result =>
    if (i : Int) ≥ limit then result
    else renderBinlogs lib limit rest (i + 1) (result ++ binlogLine lib log)

/-- The records that the loop of `renderBinlogs` renders, in the order it renders them. -/
def renderedBinlogs (limit : Int) : List BinlogRec → Nat → List BinlogRec
  | [], _ => []
  | log :: rest, i =>
    if (i : Int) ≥ limit then [] else log :: renderedBinlogs limit rest (i + 1)

/-- The slice `logs` of `getLargestBinlogs` after `sort.Slice`. -/
def sortedBinlogs (lib : Lib) (rows : List (Except String (String × Int))) : List BinlogRec :=
  lib.sortSlice binlogLess (scanBinlogs rows [])

/-- The function `getLargestBinlogs(limit)` of main.go, given the outcome of the query. -/
def getLargestBinlogs (lib : Lib) (query : Except String (List (Except String (String × Int))))
    (limit : Int) : String × GoError :=
  match query with
  | Except.error err => ("N/A", some err)
  | Except.ok rows => (renderBinlogs lib limit (sortedBinlogs lib rows) 0 "", none)

/-- The records that `getLargestBinlogs(limit)` renders when its query succeeds with `rows`. -/
def largestBinlogs (lib : Lib) (rows : List (Except String (String × Int))) (limit : Int) :
    List BinlogRec :=
  renderedBinlogs limit (sortedBinlogs lib rows) 0

/-- An element of the slice `dbTables` of `getDatabaseAndTableCounts`. -/
structure DbTableRec where
  Name : String
  Count : Int
deriving DecidableEq, Repr

/-- The loop `for rows.Next()` of `getDatabaseAndTableCounts`: a row whose scan fails, a
system schema and a schema whose count query fails are skipped. -/
def scanDatabases (tableCount : String → Except String Int) :
    List (Except String String) → List DbTableRec → List DbTableRec
  | [], dbTables => dbTables
  | Except.ok dbName :: rows, dbTables =>
    if dbName != "information_schema" && dbName != "performance_schema" && dbName != "mysql"
        && dbName != "sys" then
      match tableCount dbName with
      | Except.ok n => scanDatabases tableCount rows (dbTables ++ [⟨dbName, n⟩])
      | Except.error _ => scanDatabases tableCount rows dbTables
    else scanDatabases tableCount rows dbTables
  | Except.error _ :: rows, dbTables => scanDatabases tableCount rows dbTables

/-- The order passed to `sort.Slice` in `getDatabaseAndTableCounts`:
`dbTables[i].Count > dbTables[j].Count`. -/
def dbTableLess (x y : DbTableRec) : Bool := decide (x.Count > y.Count)

/-- The display line of a schema: `fmt.Sprintf("%s: %d tables\n", db.Name, db.Count)`. -/
def dbTableLine (db : DbTableRec) : String :=
  db.Name ++ ": " ++ sprintfD db.Count ++ " tables\n"

/-- The loop `for i, db := range dbTables` of `getDatabaseAndTableCounts`. -/
def renderDbTables : List DbTableRec → Nat → String → String
  | [], _, tableCounts => tableCounts
  | db :: rest, i, tableCounts =>
    if i ≥ 15 then tableCounts
    else renderDbTables rest (i + 1) (tableCounts ++ dbTableLine db)

/-- The records that the loop of `renderDbTables` renders, in the order it renders them. -/
def renderedDbTables : List DbTableRec → Nat → List DbTableRec
  | [], _ => []
  | db :: rest, i => if i ≥ 15 then [] else db :: renderedDbTables rest (i + 1)

/-- The slice `dbTables` of `getDatabaseAndTableCounts` after `sort.Slice`. -/
def sortedDbTables (lib : Lib) (tableCount : String → Except String Int)
    (rows : List (Except String String)) : List DbTableRec :=
  lib.sortSlice dbTableLess (scanDatabases tableCount rows [])

/-- The function `getDatabaseAndTableCounts` of main.go, given the outcomes of its queries. -/
def getDatabaseAndTableCounts (lib : Lib) (query : Except String (List (Except String String)))
    (tableCount : String → Except String Int) : String × String × GoError :=
  match query with
  | Except.error err => ("N/A", "N/A", some err)
  | Except.ok rows =>
    ("Total DBs: " ++ sprintfD ((scanDatabases tableCount rows []).length : Nat),
      stringsTrimSpace (renderDbTables (sortedDbTables lib tableCount rows) 0 ""), none)

/-- The records that `getDatabaseAndTableCounts` renders into `tableCounts` when its query
succeeds with `rows`. -/
def topDbTables (lib : Lib) (tableCount : String → Except String Int)
    (rows : List (Except String String)) : List DbTableRec :=
  renderedDbTables (sortedDbTables lib tableCount rows) 0

/-- The loop `for rows.Next()` of `getTopSlowQueries`. -/
def renderSlowQueries : List (Except String (Int × String × Int)) → String → String
  | [], result => result
  | Except.ok (id, user, time) :: rows, result =>
    renderSlowQueries rows
      (result ++ ("ID: " ++ sprintfD id ++ ", User: " ++ user ++ ", Time: " ++ sprintfD time
        ++ "s\n"))
  | Except.error _ :: rows, result => renderSlowQueries rows result

/-- The function `getTopSlowQueries` of main.go, given the outcome of the query. -/
def getTopSlowQueries (query : Except String (List (Except String (Int × String × Int)))) :
    String × GoError :=
  match query with
  | Except.error err => ("N/A", some err)
  | Except.ok rows => (renderSlowQueries rows "", none)

/-- The function `getQueryCounts` of main.go: each scan writes its counter when it
succeeds, and its error is dropped. -/
def getQueryCounts (comSelect comInsert comUpdate comDelete : Except String Int)
    (s : Snapshot) : Snapshot × String × GoError :=
  let s1 := match comSelect with
    | Except.ok n => { s with selectCount := n }
    | Except.error _ => s
  let s2 := match comInsert with
    | Except.ok n => { s1 with insertCount := n }
    | Except.error _ => s1
  let s3 := match comUpdate with
    | Except.ok n => { s2 with updateCount := n }
    | Except.error _ => s2
  let s4 := match comDelete with
    | Except.ok n => { s3 with deleteCount := n }
    | Except.error _ => s3
  (s4, "Select: " ++ sprintfD s4.selectCount ++ ", Insert: " ++ sprintfD s4.insertCount
    ++ ", Update: " ++ sprintfD s4.updateCount ++ ", Delete: " ++ sprintfD s4.deleteCount, none)

/-- The loop `for rows.Next()` of `getTopOperations`. -/
def renderTopOperations (lib : Lib) :
    List (Except String (Int × String × Int × String)) → String → String
  | [], result => result
  | Except.ok (id, command, time, info) :: rows, result =>
    renderTopOperations lib rows
      (result ++ ("ID: " ++ sprintfD id ++ ", Op: " ++ command ++ ", Table: "
        ++ extractTableName lib info ++ ", Time: " ++ sprintfD time ++ "s\n"))
  | Except.error _ :: rows, result => renderTopOperations lib rows result

/-- The function `getTopOperations` of main.go, given the outcome of the query. -/
def getTopOperations (lib : Lib)
    (query : Except String (List (Except String (Int × String × Int × String)))) :
    String × GoError :=
  match query with
  | Except.error err => ("N/A", some err)
  | Except.ok rows => (renderTopOperations lib rows "", none)

/-! ## Collector (`collectMetrics`, main.go 90-140) -/

/-- One turn of the loop of `collectMetrics`, from the outcomes of its source calls and the
package-level variables before it, up to `time.Sleep`: the variables after it, or the
run-time panic that ends the goroutine and with it the process. -/
def collectMetricsCycle (lib : Lib) (src : Sources lib) (s : Snapshot) :
    Except String Snapshot :=
  match src.cpuPercent.1 with
  | [] => Except.error "runtime error: index out of range [0] with length 0"
  | c0 :: _ =>
    let s1 := { s with cpuUsage := lib.sprintf2f c0 ++ "%" }
    match src.virtualMemory.1 with
    | none => Except.error "runtime error: invalid memory address or nil pointer dereference"
    | some v =>
      let s2 := { s1 with
        memoryUsage := lib.sprintf2f v.UsedPercent ++ "% used of "
          ++ lib.sprintf2f (lib.toGiB v.Total) ++ " GB" }
      let s3 := match src.threadsConnected with
        | Except.ok n => { s2 with connectionCount := n }
        | Except.error _ => s2
      let s4 := match src.slaveStatus with
        | Except.error _ => { s3 with replicationStatus := "No replication" }
        | Except.ok _ => { s3 with replicationStatus := "Replication active" }
      let s5 := match src.version with
        | Except.ok v => { s4 with dbVersion := v }
        | Except.error _ => s4
      let s6 := { s5 with hostname := src.osHostname.1 }
      let s7 := { s6 with ipAddress := (getLocalIP src.interfaceAddrs).1 }
      match src.diskUsage.1 with
      | none => Except.error "runtime error: invalid memory address or nil pointer dereference"
      | some usage =>
        let s8 := { s7 with
          diskAvailable := lib.sprintf2f (lib.toGiB usage.Free) ++ " GB available"
          diskUsage := lib.sprintf2f usage.UsedPercent ++ "% used" }
        let s9 := { s8 with binlogSizes := (getLargestBinlogs lib src.binaryLogs 15).1 }
        let dt := getDatabaseAndTableCounts lib src.databases src.tableCount
        let s10 := { s9 with dbCounts := dt.1, tableCounts := dt.2.1 }
        let s11 := { s10 with slowQueries := (getTopSlowQueries src.slowProcesses).1 }
        let s12 := (getQueryCounts src.comSelect src.comInsert src.comUpdate src.comDelete s11).1
        Except.ok { s12 with topOperations := (getTopOperations lib src.topProcesses).1 }

/-! ## Renderer (`drawUI`, main.go 329-503) -/

/-- Go's `image.Rectangle`: the cells `(x, y)` with `x0 ≤ x < x1` and `y0 ≤ y < y1`. -/
structure Rect where
  x0 : Int
  y0 : Int
  x1 : Int
  y1 : Int
deriving DecidableEq, Repr

/-- The rectangle that `SetRect(x1, y1, x2, y2)` gives a widget: `image.Rect`, which puts
the smaller coordinate first. -/
def setRect (x1 y1 x2 y2 : Int) : Rect :=
  ⟨min x1 x2, min y1 y2, max x1 x2, max y1 y2⟩

/-- The cell `(x, y)` belongs to the rectangle (Go's `Point.In`). -/
def Rect.Contains (r : Rect) (x y : Int) : Prop :=
  r.x0 ≤ x ∧ x < r.x1 ∧ r.y0 ≤ y ∧ y < r.y1

/-- The two rectangles have a cell in common, for rectangles that are not empty. -/
def Rect.overlaps (r s : Rect) : Bool :=
  decide (r.x0 < s.x1 ∧ s.x0 < r.x1 ∧ r.y0 < s.y1 ∧ s.y0 < r.y1)

/-- The rectangles of the 18 widgets of `drawUI`, in the order of the calls of `SetRect`. -/
def panelRects : List (String × Rect) :=
  [ ("title", setRect 0 0 100 3),
    ("connectionBox", setRect 0 3 25 6),
    ("replicationBox", setRect 0 6 25 9),
    ("hostnameBox", setRect 0 9 25 12),
    ("ipBox", setRect 0 12 25 15),
    ("versionBox", setRect 0 15 25 18),
    ("memoryBox", setRect 0 18 25 21),
    ("cpuBox", setRect 0 21 25 24),
    ("diskBox", setRect 0 24 25 27),
    ("dbCountBox", setRect 25 3 50 6),
    ("tableCountBox", setRect 25 6 50 15),
    ("binlogBox", setRect 25 15 75 24),
    ("selectBox", setRect 50 3 66 6),
    ("insertBox", setRect 66 3 82 6),
    ("updateBox", setRect 50 6 66 9),
    ("deleteBox", setRect 66 6 82 9),
    ("topOperationsBox", setRect 25 24 75 33),
    ("footer", setRect 0 33 100 36) ]

/-- The field `Text` of each of the 18 widgets of `drawUI`. -/
structure Panels where
  title : String
  connectionBox : String
  replicationBox : String
  hostnameBox : String
  ipBox : String
  versionBox : String
  memoryBox : String
  cpuBox : String
  diskBox : String
  dbCountBox : String
  tableCountBox : String
  binlogBox : String
  selectBox : String
  insertBox : String
  updateBox : String
  deleteBox : String
  topOperationsBox : String
  footer : String
deriving DecidableEq, Repr

/-- The texts that `drawUI` gives the widgets before the initial render (main.go 336-456),
from the package-level variables at that moment. -/
def initialPanels (s : Snapshot) : Panels where
  title := "MONITORING CONSOLE FOR MARIADB/MYSQL\nVer. 1.0 beta\nCreated by: Luis Contreras\nEmail: luis.contreras.do@gmail.com"
  connectionBox := sprintfD s.connectionCount
  replicationBox := s.replicationStatus
  hostnameBox := s.hostname
  ipBox := s.ipAddress
  versionBox := s.dbVersion
  memoryBox := s.memoryUsage
  cpuBox := s.cpuUsage
  diskBox := s.diskAvailable ++ "\n" ++ s.diskUsage
  dbCountBox := s.dbCounts
  tableCountBox := s.tableCounts
  binlogBox := s.binlogSizes
  selectBox := "  " ++ sprintfD s.selectCount ++ "  "
  insertBox := "  " ++ sprintfD s.insertCount ++ "  "
  updateBox := "  " ++ sprintfD s.updateCount ++ "  "
  deleteBox := "  " ++ sprintfD s.deleteCount ++ "  "
  topOperationsBox := s.topOperations
  footer := "Press Ctrl + C to exit\nCopyright 2024"

/-- The assignments of the case `<-ticker` of the loop of `drawUI` (main.go 472-487), from
the package-level variables at the tick. -/
def refreshPanels (s : Snapshot) (p : Panels) : Panels :=
  let p := { p with connectionBox := sprintfD s.connectionCount }
  let p := { p with replicationBox := s.replicationStatus }
  let p := { p with hostnameBox := s.hostname }
  let p := { p with ipBox := s.ipAddress }
  let p := { p with versionBox := s.dbVersion }
  let p := { p with memoryBox := s.memoryUsage }
  let p := { p with cpuBox := s.cpuUsage }
  let p := { p with diskBox := s.diskAvailable ++ "\n" ++ s.diskUsage }
  let p := { p with dbCountBox := s.dbCounts }
  let p := { p with tableCountBox := s.tableCounts }
  let p := { p with binlogBox := s.binlogSizes }
  let p := { p with selectBox := "  " ++ sprintfD s.selectCount ++ "  " }
  let p := { p with insertBox := "  " ++ sprintfD s.insertCount ++ "  " }
  let p := { p with updateBox := "  " ++ sprintfD s.updateCount ++ "  " }
  let p := { p with deleteBox := "  " ++ sprintfD s.deleteCount ++ "  " }
  { p with topOperationsBox := s.topOperations }

/-- The texts of the 16 data panels, in the order of the arguments of `ui.Render`. -/
def Panels.dataTexts (p : Panels) : List String :=
  [p.connectionBox, p.replicationBox, p.hostnameBox, p.ipBox, p.versionBox, p.memoryBox,
    p.cpuBox, p.diskBox, p.dbCountBox, p.tableCountBox, p.binlogBox, p.selectBox,
    p.insertBox, p.updateBox, p.deleteBox, p.topOperationsBox]

/-- The event types of termui. -/
inductive EventType where
  | KeyboardEvent
  | MouseEvent
  | ResizeEvent
deriving DecidableEq, Repr

/-- The fields of a termui `Event` that the loop of `drawUI` reads (`Type` and `ID`). -/
structure Event where
  eventType : EventType
  ID : String
deriving DecidableEq, Repr

/-- What the `select` of the loop of `drawUI` receives: a tick of the ticker, with the
package-level variables at that moment, or an event of `uiEvents`. -/
inductive Input where
  | tick (s : Snapshot)
  | uiEvent (e : Event)

/-- The presentation loop: running with the current widget texts, or returned. -/
inductive LoopState where
  | Running (panels : Panels)
  | Terminated
deriving DecidableEq, Repr

/-- One turn of the loop `for { select { ... } }` of `drawUI` (main.go 469-502); there is
no turn once `drawUI` has returned. -/
def drawUIStep : LoopState → Input → Option LoopState
  | LoopState.Terminated, _ => none
  | LoopState.Running p, Input.tick s => some (LoopState.Running (refreshPanels s p))
  | LoopState.Running p, Input.uiEvent e =>
    if e.eventType = EventType.KeyboardEvent then
      if e.ID == "q" || e.ID == "<C-c>" then some LoopState.Terminated
      else some (LoopState.Running p)
    else some (LoopState.Running p)

/-! ## Inputs on which the model is evaluated -/

/-- A cycle in which every source succeeds except `SHOW BINARY LOGS` and
`SHOW SLAVE STATUS`, which return an error. -/
def sampleSources : Sources evalLib where
  cpuPercent := ([(1250 : Nat)], none)
  virtualMemory := (some ⟨(4000 : Nat), 8 * 1024 * 1024 * 1024⟩, none)
  threadsConnected := Except.ok 7
  slaveStatus := Except.error "sql: no rows in result set"
  version := Except.ok "10.11.6-MariaDB"
  osHostname := ("db1", none)
  interfaceAddrs := ([⟨true, true, true, "127.0.0.1"⟩, ⟨true, false, true, "10.0.0.5"⟩], none)
  diskUsage := (some ⟨20 * 1024 * 1024 * 1024, (3500 : Nat)⟩, none)
  binaryLogs := Except.error "Error 1381: You are not using binary logging"
  databases := Except.ok [Except.ok "mysql", Except.ok "shop", Except.ok "blog"]
  tableCount := fun name => if name = "shop" then Except.ok 12 else Except.ok 3
  slowProcesses := Except.ok [Except.ok (41, "app", 9)]
  comSelect := Except.ok 100
  comInsert := Except.ok 20
  comUpdate := Except.error "sql: no rows in result set"
  comDelete := Except.ok 1
  topProcesses := Except.ok [Except.ok (41, "Query", 9, "select * from orders where id = 3")]

/-- The cycle of `sampleSources` with a failing CPU source: `cpu.Percent` returns a nil
slice and an error. -/
def cpuFailureSources : Sources evalLib :=
  { sampleSources with cpuPercent := ([], some "open /proc/stat: no such file or directory") }

/-- The cycle of `sampleSources` with a failing memory source: `mem.VirtualMemory` returns
a nil pointer and an error. -/
def memFailureSources : Sources evalLib :=
  { sampleSources with
    virtualMemory := (none, some "open /proc/meminfo: no such file or directory") }

/-- The cycle of `sampleSources` with a failing disk source: `disk.Usage` returns a nil
pointer and an error. -/
def diskFailureSources : Sources evalLib :=
  { sampleSources with diskUsage := (none, some "no such file or directory") }

/-- The cycle of `sampleSources` in which `os.Hostname` fails, returning the empty string
with its error. -/
def hostnameFailureSources : Sources evalLib :=
  { sampleSources with osHostname := ("", some "open /proc/sys/kernel/hostname: permission denied") }

/-- The package-level variables after an earlier cycle in which every source succeeded. -/
def sampleSnapshot : Snapshot where
  connectionCount := 5
  replicationStatus := "Replication active"
  hostname := "db1"
  ipAddress := "10.0.0.5"
  dbVersion := "10.11.6-MariaDB"
  memoryUsage := "39.00% used of 8.00 GB"
  cpuUsage := "11.00%"
  diskAvailable := "21.00 GB available"
  diskUsage := "34.00% used"
  binlogSizes := "mysql-bin.000002: 3.00 MB\nmysql-bin.000001: 1.00 MB\n"
  dbCounts := "Total DBs: 2"
  tableCounts := "shop: 12 tables\nblog: 3 tables"
  slowQueries := ""
  selectCount := 90
  insertCount := 18
  updateCount := 4
  deleteCount := 1
  topOperations := ""

/-- The contract of `sort.Slice` for an order `less`: the slice after the call holds the
elements it held before, and no element is `less` than one at a smaller index. -/
def Sorts {α : Type} (less : α → α → Bool) (input output : List α) : Prop :=
  output.Perm input ∧ output.Pairwise (fun x y => less y x = false)

/-- The library instance `lib` with the pdqsort of Go 1.19 and later as `sort.Slice`. -/
def withGoSort (lib : Lib) : Lib := { lib with sortSlice := goSortSlice }

/-- The record that a row of `SHOW BINARY LOGS` appends to `logs`, if its scan succeeds. -/
def binlogOfRow : Except String (String × Int) → Option BinlogRec
  | Except.ok (name, size) => some ⟨name, size⟩
  | Except.error _ => none

/-- Three binlogs, the two largest of the same size, and a row whose scan fails. -/
def tiedBinlogRows : List (Except String (String × Int)) :=
  [Except.ok ("mysql-bin.000001", 1048576), Except.ok ("mysql-bin.000002", 5242880),
    Except.error "sql: Scan error on column index 1", Except.ok ("mysql-bin.000003", 5242880)]

/-- Thirteen binlogs named a to m: twelve of size 1, then one of size 2. -/
def thirteenBinlogRows : List (Except String (String × Int)) :=
  [Except.ok ("a", 1), Except.ok ("b", 1), Except.ok ("c", 1), Except.ok ("d", 1),
    Except.ok ("e", 1), Except.ok ("f", 1), Except.ok ("g", 1), Except.ok ("h", 1),
    Except.ok ("i", 1), Except.ok ("j", 1), Except.ok ("k", 1), Except.ok ("l", 1),
    Except.ok ("m", 2)]

/-- Rows of `SHOW DATABASES`: two system schemas and three others. -/
def sampleDatabaseRows : List (Except String String) :=
  [Except.ok "information_schema", Except.ok "blog", Except.ok "mysql", Except.ok "shop",
    Except.ok "wiki"]

/-- Table counts for `sampleDatabaseRows`: blog 3, shop 12, wiki 3. -/
def sampleTableCount (name : String) : Except String Int :=
  if name = "shop" then Except.ok 12 else Except.ok 3

/-- Records of equal key keep their order: for every key `k`, the records of `output`
with key `k`, in order, are among the records of `input` with key `k` in the order of
`input`. -/
def TiesInOrder {α : Type} (key : α → Int) (input output : List α) : Prop :=
  ∀ k : Int, (output.filter (fun x => decide (key x = k))).Sublist
    (input.filter (fun x => decide (key x = k)))

/-! ## Predicates of the proofs about `sort.Slice` -/

/-- The rank of the element at position `i` (0 outside the slice). -/
def rankAt {α : Type} (rank : α → Int) (data : List α) (i : Nat) : Int :=
  match data[i]? with
  | some x => rank x
  | none => 0

/-- The slice `data1` is `data` with the elements at the positions `a ≤ m < b` rearranged
among these positions. -/
structure Within {α : Type} (a b : Nat) (data data1 : List α) : Prop where
  len : data1.length = data.length
  perm : data1.Perm data
  out : ∀ m, (m < a ∨ b ≤ m) → data1[m]? = data[m]?
  img : ∀ m, a ≤ m → m < b → ∃ m1, a ≤ m1 ∧ m1 < b ∧ data1[m]? = data[m1]?

/-- The positions `a ≤ m < b` hold ranks in non-decreasing order. -/
def SortedOn {α : Type} (rank : α → Int) (data : List α) (a b : Nat) : Prop :=
  ∀ i j, a ≤ i → i ≤ j → j < b → rankAt rank data i ≤ rankAt rank data j

/-- No element before position `a` has a rank above one at the positions `a ≤ m < b`. -/
def LeftBound {α : Type} (rank : α → Int) (data : List α) (a b : Nat) : Prop :=
  ∀ p q, p < a → a ≤ q → q < b → rankAt rank data p ≤ rankAt rank data q


/-- The heap of `heapSort_func` on the nodes from `lo` on: in the slice of `hi` elements
that starts at `first`, no child has a rank above its parent. -/
def HeapFrom {α : Type} (rank : α → Int) (data : List α) (first lo hi : Nat) : Prop :=
  ∀ k, lo ≤ k →
    (2 * k + 1 < hi → rankAt rank data (first + (2 * k + 1)) ≤ rankAt rank data (first + k)) ∧
    (2 * k + 2 < hi → rankAt rank data (first + (2 * k + 2)) ≤ rankAt rank data (first + k))

/-- The heap with a hole at `root`: every node from `lo` on other than `root` is above its
children, and the parent of `root` is above the children of `root`. -/
def HeapExcept {α : Type} (rank : α → Int) (data : List α) (first lo hi root : Nat) : Prop :=
  (∀ k, lo ≤ k → k ≠ root →
    (2 * k + 1 < hi → rankAt rank data (first + (2 * k + 1)) ≤ rankAt rank data (first + k)) ∧
    (2 * k + 2 < hi → rankAt rank data (first + (2 * k + 2)) ≤ rankAt rank data (first + k))) ∧
  (∀ k, lo ≤ k → (2 * k + 1 = root ∨ 2 * k + 2 = root) →
    (2 * root + 1 < hi →
      rankAt rank data (first + (2 * root + 1)) ≤ rankAt rank data (first + k)) ∧
    (2 * root + 2 < hi →
      rankAt rank data (first + (2 * root + 2)) ≤ rankAt rank data (first + k)))

/-- The library keeps the contract of `sort.Slice`: for every order `less` that compares a
rank of the elements, the slice after the call is a permutation of the slice before it
in which no element is `less` than an earlier one. -/
def SortContract (lib : Lib) : Prop :=
  ∀ (α : Type) (less : α → α → Bool) (rank : α → Int),
    (∀ x y, less x y = decide (rank x < rank y)) →
    ∀ data : List α, Sorts less data (lib.sortSlice less data)

/-! ## Table-name extraction: proofs -/

theorem isKeyword_cond (lib : Lib) (word : String) :
    (lib.toUpper word == "FROM" || lib.toUpper word == "INTO"
      || lib.toUpper word == "UPDATE") = true ↔ IsKeyword lib word := by
  simp [IsKeyword, or_assoc]

theorem extractTableNameLoop_none (lib : Lib) (words : List String) :
    ∀ (rest : List String) (i : Nat), (∀ w ∈ rest, ¬ IsKeyword lib w) →
      extractTableNameLoop lib words rest i = "Unknown" := by
  intro rest
  induction rest with
  | nil => intro i _; rfl
  | cons w rest ih =>
    intro i h
    have hw : ¬ IsKeyword lib w := h w (List.mem_cons_self _ _)
    rw [← isKeyword_cond] at hw
    rw [extractTableNameLoop, if_neg hw]
    exact ih (i + 1) (fun w' hw' => h w' (List.mem_cons_of_mem _ hw'))

theorem extractTableNameLoop_first (lib : Lib) (words : List String) :
    ∀ (rest : List String) (i k : Nat), i + rest.length = words.length →
      (∃ w, rest[k]? = some w ∧ IsKeyword lib w) →
      (∀ j w, j < k → rest[j]? = some w → ¬ IsKeyword lib w) →
      extractTableNameLoop lib words rest i = (words[i + k + 1]?).getD "Unknown" := by
  intro rest
  induction rest with
  | nil => intro i k _ h; obtain ⟨w, hw, _⟩ := h; simp at hw
  | cons w rest ih =>
    intro i k hlen hk hfirst
    cases k with
    | zero =>
      obtain ⟨w', hw', hkw⟩ := hk
      simp at hw'
      subst hw'
      rw [← isKeyword_cond] at hkw
      rw [extractTableNameLoop, if_pos hkw]
      by_cases h : i + 1 < words.length
      · rw [dif_pos h]; simp [List.getElem?_eq_getElem h]
      · rw [dif_neg h]
        have hrest : rest = [] := by
          apply List.eq_nil_of_length_eq_zero
          simp at hlen; omega
        subst hrest
        have : words[i + 0 + 1]? = none := by
          apply List.getElem?_eq_none; omega
        rw [this]; rfl
    | succ k =>
      have hw : ¬ IsKeyword lib w := hfirst 0 w (Nat.succ_pos k) (by simp)
      rw [← isKeyword_cond] at hw
      rw [extractTableNameLoop, if_neg hw]
      have hlen2 : i + 1 + rest.length = words.length := by simp at hlen; omega
      have hk2 : ∃ w, rest[k]? = some w ∧ IsKeyword lib w := by
        obtain ⟨w', hw', hkw⟩ := hk
        exact ⟨w', by simpa using hw', hkw⟩
      have hfirst2 : ∀ j w, j < k → rest[j]? = some w → ¬ IsKeyword lib w := by
        intro j w' hj hjw
        exact hfirst (j + 1) w' (by omega) (by simpa using hjw)
      rw [ih (i + 1) k hlen2 hk2 hfirst2]
      have : i + 1 + k + 1 = i + (k + 1) + 1 := by omega
      rw [this]

/-- C1. With `words = strings.Fields(q)`: when `i` is the least index of a word that
equals FROM, INTO or UPDATE once upper-cased, `extractTableName(q)` is `words[i+1]` if
`i+1 < len(words)` and "Unknown" if `i` is the last index; when no word is such a keyword
it is "Unknown". This holds whatever `strings.ToUpper` computes; with upper-casing of
ASCII letters the four examples of the specification give "users", "orders", "Unknown"
and "Unknown". -/
theorem extractTableName_first_keyword (lib : Lib) (q : String) :
    (∀ (i : Nat) (hi : i < (stringsFields q).length),
        IsKeyword lib (stringsFields q)[i] →
        (∀ (j : Nat) (hj : j < i), ¬ IsKeyword lib (stringsFields q)[j]) →
        ((h : i + 1 < (stringsFields q).length) →
            extractTableName lib q = (stringsFields q)[i + 1]) ∧
          (i + 1 = (stringsFields q).length → extractTableName lib q = "Unknown")) ∧
    ((∀ w ∈ stringsFields q, ¬ IsKeyword lib w) → extractTableName lib q = "Unknown") ∧
    extractTableName evalLib "SELECT * FROM users WHERE id=1" = "users" ∧
    extractTableName evalLib "INSERT INTO orders VALUES (1)" = "orders" ∧
    extractTableName evalLib "SHOW STATUS" = "Unknown" ∧
    extractTableName evalLib "UPDATE" = "Unknown" := by
  refine ⟨?_, ?_, by decide, by decide, by decide, by decide⟩
  · intro i hi hkw hfirst
    have hmain : extractTableName lib q = ((stringsFields q)[i + 1]?).getD "Unknown" := by
      have := extractTableNameLoop_first lib (stringsFields q) (stringsFields q) 0 i
        (by simp) ⟨_, List.getElem?_eq_getElem hi, hkw⟩
        (by
          intro j w hj hjw
          have hj2 : j < (stringsFields q).length := by omega
          rw [List.getElem?_eq_getElem hj2] at hjw
          have := hfirst j hj
          simp at hjw
          rw [← hjw]; exact this)
      simpa [extractTableName] using this
    constructor
    · intro h
      rw [hmain, List.getElem?_eq_getElem h]; rfl
    · intro h
      rw [hmain, List.getElem?_eq_none (by omega)]; rfl
  · intro h
    exact extractTableNameLoop_none lib (stringsFields q) (stringsFields q) 0 h

/-- C1, applied: in "delete from t1 where x = 2" the least keyword index is 1 (with
ASCII upper-casing), and the word after it is returned. -/
theorem extractTableName_first_keyword_witness :
    extractTableName evalLib "delete from t1 where x = 2" = "t1" :=
  ((extractTableName_first_keyword evalLib "delete from t1 where x = 2").1 1
    (by decide) (by decide)
    (by
      intro j hj
      have h0 : j = 0 := by omega
      subst h0
      exact (by decide : ∀ h : 0 < (stringsFields "delete from t1 where x = 2").length,
        ¬ IsKeyword evalLib (stringsFields "delete from t1 where x = 2")[0]) _)).1 (by decide)

/-! ## Collector: proofs -/

/-- A cycle whose CPU, memory and disk sources return a value runs to its end, and its
result is the chain of assignments of `collectMetrics`. -/
theorem collectMetricsCycle_ok (lib : Lib) (src : Sources lib) (s : Snapshot)
    (c0 : lib.Float64) (cs : List lib.Float64) (v : VirtualMemoryStat lib.Float64)
    (usage : UsageStat lib.Float64)
    (hcpu : src.cpuPercent.1 = c0 :: cs) (hmem : src.virtualMemory.1 = some v)
    (hdisk : src.diskUsage.1 = some usage) :
    ∃ s1 : Snapshot, collectMetricsCycle lib src s = Except.ok s1 ∧
      s1.connectionCount =
        (match src.threadsConnected with
          | Except.ok n => n
          | Except.error _ => s.connectionCount) ∧
      s1.replicationStatus =
        (match src.slaveStatus with
          | Except.error _ => "No replication"
          | Except.ok _ => "Replication active") ∧
      s1.dbVersion =
        (match src.version with
          | Except.ok v => v
          | Except.error _ => s.dbVersion) ∧
      s1.binlogSizes = (getLargestBinlogs lib src.binaryLogs 15).1 ∧
      s1.dbCounts = (getDatabaseAndTableCounts lib src.databases src.tableCount).1 ∧
      s1.tableCounts = (getDatabaseAndTableCounts lib src.databases src.tableCount).2.1 ∧
      s1.slowQueries = (getTopSlowQueries src.slowProcesses).1 ∧
      s1.topOperations = (getTopOperations lib src.topProcesses).1 ∧
      s1.hostname = src.osHostname.1 ∧
      s1.ipAddress = (getLocalIP src.interfaceAddrs).1 ∧
      s1.selectCount =
        (match src.comSelect with
          | Except.ok n => n
          | Except.error _ => s.selectCount) ∧
      s1.insertCount =
        (match src.comInsert with
          | Except.ok n => n
          | Except.error _ => s.insertCount) ∧
      s1.updateCount =
        (match src.comUpdate with
          | Except.ok n => n
          | Except.error _ => s.updateCount) ∧
      s1.deleteCount =
        (match src.comDelete with
          | Except.ok n => n
          | Except.error _ => s.deleteCount) := by
  obtain ⟨⟨cpu, cpuErr⟩, ⟨mem, memErr⟩, tc, ss, ver, hn, ia, ⟨du, duErr⟩, bl, dbs, tcnt, sp,
    c1, c2, c3, c4, tp⟩ := src
  simp only at hcpu hmem hdisk
  subst hcpu hmem hdisk
  cases tc <;> cases ss <;> cases ver <;> cases c1 <;> cases c2 <;> cases c3 <;> cases c4 <;>
    exact ⟨_, rfl, rfl, rfl, rfl, rfl, rfl, rfl, rfl, rfl, rfl, rfl, rfl, rfl, rfl, rfl⟩

/-- A cycle that runs to its end had a CPU, a memory and a disk value. -/
theorem collectMetricsCycle_ok_inv (lib : Lib) (src : Sources lib) (s s1 : Snapshot)
    (h : collectMetricsCycle lib src s = Except.ok s1) :
    (∃ c0 cs, src.cpuPercent.1 = c0 :: cs) ∧ (∃ v, src.virtualMemory.1 = some v) ∧
      (∃ usage, src.diskUsage.1 = some usage) := by
  obtain ⟨⟨cpu, cpuErr⟩, ⟨mem, memErr⟩, tc, ss, ver, hn, ia, ⟨du, duErr⟩, bl, dbs, tcnt, sp,
    c1, c2, c3, c4, tp⟩ := src
  cases cpu with
  | nil => exact absurd h (by simp [collectMetricsCycle])
  | cons c0 cs =>
    cases mem with
    | none => exact absurd h (by simp [collectMetricsCycle])
    | some v =>
      cases du with
      | none => exact absurd h (by simp [collectMetricsCycle])
      | some usage => exact ⟨⟨c0, cs, rfl⟩, ⟨v, rfl⟩, ⟨usage, rfl⟩⟩

/-- C2, as the code has it. In a cycle of `collectMetrics` whose CPU, memory and disk
sources return a value, the cycle runs to its end and, for a source that fails in it:
`connectionCount`, `dbVersion`, `selectCount`, `insertCount`, `updateCount` and
`deleteCount` keep the value they had before the cycle; `binlogSizes`, `dbCounts`,
`tableCounts`, `slowQueries` and `topOperations` become "N/A"; `replicationStatus`
becomes "No replication". -/
theorem collectMetrics_failed_source (lib : Lib) (src : Sources lib) (s : Snapshot)
    (c0 : lib.Float64) (cs : List lib.Float64) (v : VirtualMemoryStat lib.Float64)
    (usage : UsageStat lib.Float64)
    (hcpu : src.cpuPercent.1 = c0 :: cs) (hmem : src.virtualMemory.1 = some v)
    (hdisk : src.diskUsage.1 = some usage) :
    ∃ s1 : Snapshot, collectMetricsCycle lib src s = Except.ok s1 ∧
      (Failed src.threadsConnected → s1.connectionCount = s.connectionCount) ∧
      (Failed src.version → s1.dbVersion = s.dbVersion) ∧
      (Failed src.comSelect → s1.selectCount = s.selectCount) ∧
      (Failed src.comInsert → s1.insertCount = s.insertCount) ∧
      (Failed src.comUpdate → s1.updateCount = s.updateCount) ∧
      (Failed src.comDelete → s1.deleteCount = s.deleteCount) ∧
      (Failed src.binaryLogs → s1.binlogSizes = "N/A") ∧
      (Failed src.databases → s1.dbCounts = "N/A" ∧ s1.tableCounts = "N/A") ∧
      (Failed src.slowProcesses → s1.slowQueries = "N/A") ∧
      (Failed src.topProcesses → s1.topOperations = "N/A") ∧
      (Failed src.slaveStatus → s1.replicationStatus = "No replication") := by
  obtain ⟨s1, hs1, hconn, hrepl, hver, hbin, hdb, htab, hslow, htop, _, _, hsel, hins, hupd,
    hdel⟩ := collectMetricsCycle_ok lib src s c0 cs v usage hcpu hmem hdisk
  refine ⟨s1, hs1, ?_, ?_, ?_, ?_, ?_, ?_, ?_, ?_, ?_, ?_, ?_⟩
  · rintro ⟨e, he⟩; rw [hconn, he]
  · rintro ⟨e, he⟩; rw [hver, he]
  · rintro ⟨e, he⟩; rw [hsel, he]
  · rintro ⟨e, he⟩; rw [hins, he]
  · rintro ⟨e, he⟩; rw [hupd, he]
  · rintro ⟨e, he⟩; rw [hdel, he]
  · rintro ⟨e, he⟩; rw [hbin, he]; rfl
  · rintro ⟨e, he⟩; rw [hdb, htab, he]; exact ⟨rfl, rfl⟩
  · rintro ⟨e, he⟩; rw [hslow, he]; rfl
  · rintro ⟨e, he⟩; rw [htop, he]; rfl
  · rintro ⟨e, he⟩; rw [hrepl, he]

/-- C2, applied to `sampleSources`, whose `Com_update` scan fails: the cycle runs through
and `updateCount` keeps its value 4. -/
theorem collectMetrics_failed_source_witness :
    ∃ s1 : Snapshot, collectMetricsCycle evalLib sampleSources sampleSnapshot = Except.ok s1 ∧
      s1.updateCount = 4 := by
  obtain ⟨s1, hs1, _, _, _, _, hupd, _⟩ :=
    collectMetrics_failed_source evalLib sampleSources sampleSnapshot (1250 : Nat) []
      ⟨(4000 : Nat), 8 * 1024 * 1024 * 1024⟩ ⟨20 * 1024 * 1024 * 1024, (3500 : Nat)⟩ rfl rfl rfl
  exact ⟨s1, hs1, hupd ⟨_, rfl⟩⟩

/-- C2 as stated fails: in the cycle of `sampleSources` the query `SHOW BINARY LOGS`
fails, the cycle runs to its end, and `binlogSizes`, which listed two binlogs before the
cycle, is "N/A" after it. -/
theorem collectMetrics_binlog_failure_overwrites :
    Failed sampleSources.binaryLogs ∧
      sampleSnapshot.binlogSizes = "mysql-bin.000002: 3.00 MB\nmysql-bin.000001: 1.00 MB\n" ∧
      (∃ s1 : Snapshot,
        collectMetricsCycle evalLib sampleSources sampleSnapshot = Except.ok s1 ∧
          s1.binlogSizes = "N/A" ∧ s1.binlogSizes ≠ sampleSnapshot.binlogSizes) :=
  ⟨⟨_, rfl⟩, rfl, ⟨_, rfl, rfl, by decide⟩⟩

/-- C3 fails on the code: when `cpu.Percent` returns a nil slice with its error, the
cycle does not reach its sleep: `cpuPercents[0]` panics. In the same way the cycle panics
on the nil pointer that `mem.VirtualMemory` or `disk.Usage` return with their error. -/
theorem collectMetrics_cpu_failure_panics :
    (cpuFailureSources.cpuPercent = ([], some "open /proc/stat: no such file or directory") ∧
      collectMetricsCycle evalLib cpuFailureSources sampleSnapshot
        = Except.error "runtime error: index out of range [0] with length 0") ∧
    (memFailureSources.virtualMemory.1 = none ∧
      collectMetricsCycle evalLib memFailureSources sampleSnapshot
        = Except.error "runtime error: invalid memory address or nil pointer dereference") ∧
    (diskFailureSources.diskUsage.1 = none ∧
      collectMetricsCycle evalLib diskFailureSources sampleSnapshot
        = Except.error "runtime error: invalid memory address or nil pointer dereference") :=
  ⟨⟨rfl, rfl⟩, ⟨rfl, rfl⟩, ⟨rfl, rfl⟩⟩

/-- When `os.Hostname` fails, the assignment `hostname, err = os.Hostname()` has already
replaced `hostname` by the empty string that comes with the error. -/
theorem collectMetrics_hostname_failure_resets :
    sampleSnapshot.hostname = "db1" ∧
      ∃ s1 : Snapshot,
        collectMetricsCycle evalLib hostnameFailureSources sampleSnapshot = Except.ok s1 ∧
          s1.hostname = "" :=
  ⟨rfl, _, rfl, rfl⟩

/-- C9. After a cycle of `collectMetrics` that runs to its end, `replicationStatus` is
"No replication" when the scan of `SHOW SLAVE STATUS` returned an error, whatever the
error, and "Replication active" when it returned none, whatever `replicationStatus` was
before; and the cycle runs to its end whenever the CPU, memory and disk sources return a
value. -/
theorem replicationStatus_after_cycle (lib : Lib) (src : Sources lib) (s : Snapshot) :
    (∀ s1 : Snapshot, collectMetricsCycle lib src s = Except.ok s1 →
      ((∃ e, src.slaveStatus = Except.error e) → s1.replicationStatus = "No replication") ∧
      ((∃ r, src.slaveStatus = Except.ok r) → s1.replicationStatus = "Replication active")) ∧
    (∀ (c0 : lib.Float64) (cs : List lib.Float64) (v : VirtualMemoryStat lib.Float64)
        (usage : UsageStat lib.Float64),
      src.cpuPercent.1 = c0 :: cs → src.virtualMemory.1 = some v →
      src.diskUsage.1 = some usage →
      ∃ s1 : Snapshot, collectMetricsCycle lib src s = Except.ok s1) := by
  constructor
  · intro s1 hs1
    obtain ⟨⟨c0, cs, hcpu⟩, ⟨v, hmem⟩, ⟨usage, hdisk⟩⟩ :=
      collectMetricsCycle_ok_inv lib src s s1 hs1
    obtain ⟨s2, hs2, _, hrepl, _⟩ := collectMetricsCycle_ok lib src s c0 cs v usage hcpu hmem hdisk
    rw [hs1] at hs2
    cases hs2
    constructor
    · rintro ⟨e, he⟩; rw [hrepl, he]
    · rintro ⟨r, hr⟩; rw [hrepl, hr]
  · intro c0 cs v usage hcpu hmem hdisk
    obtain ⟨s1, hs1, _⟩ := collectMetricsCycle_ok lib src s c0 cs v usage hcpu hmem hdisk
    exact ⟨s1, hs1⟩

/-- C9, applied to `sampleSources`, whose `SHOW SLAVE STATUS` scan fails while the prior
status is "Replication active": the cycle runs to its end with "No replication". -/
theorem replicationStatus_after_cycle_witness :
    sampleSnapshot.replicationStatus = "Replication active" ∧
      ∃ s1 : Snapshot, collectMetricsCycle evalLib sampleSources sampleSnapshot = Except.ok s1 ∧
        s1.replicationStatus = "No replication" := by
  refine ⟨rfl, ?_⟩
  obtain ⟨s1, hs1⟩ := (replicationStatus_after_cycle evalLib sampleSources sampleSnapshot).2
    (1250 : Nat) [] ⟨(4000 : Nat), 8 * 1024 * 1024 * 1024⟩ ⟨20 * 1024 * 1024 * 1024, (3500 : Nat)⟩
    rfl rfl rfl
  exact ⟨s1, hs1,
    ((replicationStatus_after_cycle evalLib sampleSources sampleSnapshot).1 s1 hs1).1 ⟨_, rfl⟩⟩

/-! ## Renderer: proofs -/

/-- C7. For every Snapshot `s` and whatever the widgets showed before, the texts that a
refresh tick of `drawUI` gives the 16 data panels are those that the initial draw gives
them for `s`; they depend on `s` alone, the tick leaves title and footer as they were, and
a second tick with the same `s` changes no text. -/
theorem refresh_texts_eq_initial (s : Snapshot) (p : Panels) :
    (refreshPanels s p).dataTexts = (initialPanels s).dataTexts ∧
    (∀ q : Panels, (refreshPanels s q).dataTexts = (refreshPanels s p).dataTexts) ∧
    (refreshPanels s p).title = p.title ∧ (refreshPanels s p).footer = p.footer ∧
    refreshPanels s (refreshPanels s p) = refreshPanels s p ∧
    refreshPanels s (initialPanels s) = initialPanels s :=
  ⟨rfl, fun _ => rfl, rfl, rfl, rfl, rfl⟩

/-- C8. While the loop of `drawUI` is running, an input event ends it exactly when it is
a keyboard event whose ID is "q" or "<C-c>"; on every other event the loop keeps running
with every widget text unchanged; once `drawUI` has returned there is no further turn. -/
theorem drawUI_terminates_iff_quit (p : Panels) (e : Event) :
    (drawUIStep (LoopState.Running p) (Input.uiEvent e) = some LoopState.Terminated ↔
      (e.eventType = EventType.KeyboardEvent ∧ (e.ID = "q" ∨ e.ID = "<C-c>"))) ∧
    (¬ (e.eventType = EventType.KeyboardEvent ∧ (e.ID = "q" ∨ e.ID = "<C-c>")) →
      drawUIStep (LoopState.Running p) (Input.uiEvent e) = some (LoopState.Running p)) ∧
    (∀ i : Input, drawUIStep LoopState.Terminated i = none) ∧
    (∀ s : Snapshot, ∃ q : Panels,
      drawUIStep (LoopState.Running p) (Input.tick s) = some (LoopState.Running q)) := by
  refine ⟨?_, ?_, fun _ => rfl, fun s => ⟨_, rfl⟩⟩
  · unfold drawUIStep
    by_cases h1 : e.eventType = EventType.KeyboardEvent
    · by_cases h2 : (e.ID == "q" || e.ID == "<C-c>") = true
      · simp only [if_pos h1, if_pos h2, true_iff]
        exact ⟨h1, by simpa using h2⟩
      · simp only [if_pos h1, if_neg h2]
        constructor
        · intro h; simp at h
        · rintro ⟨_, h⟩; exact absurd (by simpa using h) h2
    · simp only [if_neg h1]
      constructor
      · intro h; simp at h
      · rintro ⟨h, _⟩; exact absurd h h1
  · intro h
    unfold drawUIStep
    by_cases h1 : e.eventType = EventType.KeyboardEvent
    · have h2 : ¬ ((e.ID == "q" || e.ID == "<C-c>") = true) := by
        intro h2; exact h ⟨h1, by simpa using h2⟩
      simp only [if_pos h1, if_neg h2]
    · simp only [if_neg h1]

/-- C8, applied: a mouse event keeps the loop running with the same texts. -/
theorem drawUI_terminates_iff_quit_witness :
    drawUIStep (LoopState.Running (initialPanels sampleSnapshot))
        (Input.uiEvent ⟨EventType.MouseEvent, "<MouseLeft>"⟩)
      = some (LoopState.Running (initialPanels sampleSnapshot)) :=
  (drawUI_terminates_iff_quit (initialPanels sampleSnapshot)
    ⟨EventType.MouseEvent, "<MouseLeft>"⟩).2.1 (by decide)

theorem overlaps_of_common_cell (r t : Rect) (x y : Int) (hr : r.Contains x y)
    (ht : t.Contains x y) : r.overlaps t = true := by
  unfold Rect.Contains at hr ht
  unfold Rect.overlaps
  rw [decide_eq_true_iff]
  omega

/-- C10. The 18 rectangles that `drawUI` sets with `SetRect`, read as half-open cell
ranges, are pairwise disjoint: no cell belongs to two of them. -/
theorem panelRects_pairwise_disjoint :
    panelRects.length = 18 ∧
    (panelRects.map Prod.snd).Pairwise
      (fun r t => ∀ x y : Int, ¬ (r.Contains x y ∧ t.Contains x y)) := by
  refine ⟨rfl, ?_⟩
  have h : (panelRects.map Prod.snd).Pairwise (fun r t => r.overlaps t = false) := by decide
  refine h.imp ?_
  intro r t hrt x y hxy
  rw [overlaps_of_common_cell r t x y hxy.1 hxy.2] at hrt
  cases hrt

/-! ## `sort.Slice`: proofs -/

section SortProofs

variable {α : Type}

theorem length_swap (data : List α) (i j : Nat) : (swap data i j).length = data.length := by
  unfold swap
  split <;> simp

theorem swap_cons_succ (a : α) (l : List α) (i j : Nat) :
    swap (a :: l) (i + 1) (j + 1) = a :: swap l i j := by
  simp only [swap, List.getElem?_cons_succ]
  split <;> simp

theorem perm_set_cons (a : α) :
    ∀ (l : List α) (j : Nat) (y : α), l[j]? = some y → (y :: l.set j a).Perm (a :: l) := by
  intro l
  induction l with
  | nil => intro j y h; simp at h
  | cons b l ih =>
    intro j y h
    cases j with
    | zero =>
      simp at h
      subst h
      exact List.Perm.swap _ _ _
    | succ j =>
      simp at h
      exact ((List.Perm.swap _ _ _).trans ((ih j y h).cons b)).trans (List.Perm.swap _ _ _)

theorem swap_perm : ∀ (data : List α) (i j : Nat), (swap data i j).Perm data := by
  intro data
  induction data with
  | nil => intro i j; simp [swap]
  | cons a l ih =>
    intro i j
    cases i with
    | zero =>
      cases j with
      | zero => simp [swap]
      | succ j =>
        simp only [swap, List.getElem?_cons_zero, List.getElem?_cons_succ]
        split
        · rename_i x y hx hy
          cases hx
          simpa using perm_set_cons a l j y hy
        · exact List.Perm.refl _
    | succ i =>
      cases j with
      | zero =>
        simp only [swap, List.getElem?_cons_zero, List.getElem?_cons_succ]
        split
        · rename_i x y hx hy
          cases hy
          simpa using perm_set_cons a l i x hx
        · exact List.Perm.refl _
      | succ j =>
        rw [swap_cons_succ]
        exact (ih i j).cons a

theorem getElem?_swap (data : List α) (i j : Nat) (hi : i < data.length)
    (hj : j < data.length) (m : Nat) :
    (swap data i j)[m]? = if m = j then data[i]? else if m = i then data[j]? else data[m]? := by
  unfold swap
  rw [List.getElem?_eq_getElem hi, List.getElem?_eq_getElem hj]
  simp only
  by_cases h1 : m = j
  · subst h1
    simp [List.getElem?_set, hi, hj]
  · by_cases h2 : m = i
    · subst h2
      simp [List.getElem?_set, h1, hj, hi, Ne.symm h1]
    · simp [List.getElem?_set, h1, h2, Ne.symm h1, Ne.symm h2]

theorem rankAt_swap (rank : α → Int) (data : List α) (i j : Nat) (hi : i < data.length)
    (hj : j < data.length) (m : Nat) :
    rankAt rank (swap data i j) m
      = if m = j then rankAt rank data i else if m = i then rankAt rank data j
        else rankAt rank data m := by
  unfold rankAt
  rw [getElem?_swap data i j hi hj m]
  split_ifs <;> rfl

theorem lessAt_eq (less : α → α → Bool) (rank : α → Int)
    (hless : ∀ x y, less x y = decide (rank x < rank y)) (data : List α) (i j : Nat)
    (hi : i < data.length) (hj : j < data.length) :
    lessAt less data i j = decide (rankAt rank data i < rankAt rank data j) := by
  unfold lessAt rankAt
  rw [List.getElem?_eq_getElem hi, List.getElem?_eq_getElem hj]
  exact hless _ _

theorem Within.refl (a b : Nat) (data : List α) : Within a b data data :=
  ⟨rfl, List.Perm.refl _, fun _ _ => rfl, fun m h1 h2 => ⟨m, h1, h2, rfl⟩⟩

theorem Within.trans {a b : Nat} {d1 d2 d3 : List α} (h1 : Within a b d1 d2)
    (h2 : Within a b d2 d3) : Within a b d1 d3 := by
  refine ⟨h2.len.trans h1.len, h2.perm.trans h1.perm, fun m hm => ?_, fun m hm1 hm2 => ?_⟩
  · rw [h2.out m hm, h1.out m hm]
  · obtain ⟨m1, ha, hb, e1⟩ := h2.img m hm1 hm2
    obtain ⟨m2, hc, hd, e2⟩ := h1.img m1 ha hb
    exact ⟨m2, hc, hd, e1.trans e2⟩

theorem Within.mono {a b a1 b1 : Nat} {d1 d2 : List α} (h : Within a b d1 d2)
    (ha : a1 ≤ a) (hb : b ≤ b1) : Within a1 b1 d1 d2 := by
  refine ⟨h.len, h.perm, fun m hm => h.out m (by omega), fun m hm1 hm2 => ?_⟩
  by_cases hin : a ≤ m ∧ m < b
  · obtain ⟨m1, hc, hd, e⟩ := h.img m hin.1 hin.2
    exact ⟨m1, by omega, by omega, e⟩
  · exact ⟨m, hm1, hm2, h.out m (by omega)⟩

theorem Within.swap (a b : Nat) (data : List α) (i j : Nat) (hai : a ≤ i) (hib : i < b)
    (haj : a ≤ j) (hjb : j < b) (hb : b ≤ data.length) : Within a b data (swap data i j) := by
  have hi : i < data.length := by omega
  have hj : j < data.length := by omega
  refine ⟨length_swap _ _ _, swap_perm _ _ _, fun m hm => ?_, fun m hm1 hm2 => ?_⟩
  · rw [getElem?_swap data i j hi hj, if_neg (by omega), if_neg (by omega)]
  · rw [getElem?_swap data i j hi hj]
    by_cases h1 : m = j
    · exact ⟨i, hai, hib, by rw [if_pos h1]⟩
    · by_cases h2 : m = i
      · exact ⟨j, haj, hjb, by rw [if_neg h1, if_pos h2]⟩
      · exact ⟨m, hm1, hm2, by rw [if_neg h1, if_neg h2]⟩

theorem Within.rankAt_out (rank : α → Int) {a b : Nat} {d1 d2 : List α} (h : Within a b d1 d2)
    (m : Nat) (hm : m < a ∨ b ≤ m) : rankAt rank d2 m = rankAt rank d1 m := by
  unfold rankAt
  rw [h.out m hm]

theorem Within.rankAt_img (rank : α → Int) {a b : Nat} {d1 d2 : List α} (h : Within a b d1 d2)
    (m : Nat) (hm1 : a ≤ m) (hm2 : m < b) :
    ∃ m1, a ≤ m1 ∧ m1 < b ∧ rankAt rank d2 m = rankAt rank d1 m1 := by
  obtain ⟨m1, ha, hb, e⟩ := h.img m hm1 hm2
  exact ⟨m1, ha, hb, by unfold rankAt; rw [e]⟩

theorem Within.leftBound (rank : α → Int) {a b : Nat} {d1 d2 : List α} (h : Within a b d1 d2)
    (hl : LeftBound rank d1 a b) : LeftBound rank d2 a b := by
  intro p q hp hq1 hq2
  obtain ⟨m1, ha, hb, e⟩ := h.rankAt_img rank q hq1 hq2
  rw [e, h.rankAt_out rank p (Or.inl hp)]
  exact hl p m1 hp ha hb

end SortProofs

section InsertionProofs

variable {α : Type}

theorem insertionInner_spec (less : α → α → Bool) (rank : α → Int)
    (hless : ∀ x y, less x y = decide (rank x < rank y)) (a i : Nat) :
    ∀ (j : Nat) (data : List α), a ≤ j → j ≤ i → i < data.length →
      SortedOn rank data a j → SortedOn rank data j (i + 1) →
      (∀ p q, a ≤ p → p < j → j < q → q ≤ i → rankAt rank data p ≤ rankAt rank data q) →
      Within a (i + 1) data (insertionInner less a j data) ∧
        SortedOn rank (insertionInner less a j data) a (i + 1) := by
  intro j
  induction j with
  | zero =>
    intro data ha _ _ _ h2 _
    have : a = 0 := by omega
    subst this
    exact ⟨Within.refl _ _ _, h2⟩
  | succ j ih =>
    intro data ha hji hi h1 h2 h3
    rw [insertionInner]
    split
    · rename_i hc
      rw [Bool.and_eq_true, decide_eq_true_eq,
        lessAt_eq less rank hless data (j + 1) j (by omega) (by omega), decide_eq_true_eq] at hc
      obtain ⟨haj, hlt⟩ := hc
      have hr := rankAt_swap rank data (j + 1) j (by omega) (by omega)
      have hw : Within a (i + 1) data (swap data (j + 1) j) :=
        Within.swap a (i + 1) data (j + 1) j (by omega) (by omega) (by omega) (by omega)
          (by omega)
      obtain ⟨hw2, hs⟩ := ih (swap data (j + 1) j) (by omega) (by omega)
        (by rw [length_swap]; exact hi)
        (by
          intro p q hp hpq hq
          rw [hr, hr, if_neg (by omega), if_neg (by omega), if_neg (by omega),
            if_neg (by omega)]
          exact h1 p q hp hpq (by omega))
        (by
          intro p q hp hpq hq
          rw [hr, hr]
          by_cases hpj : p = j
          · rw [if_pos hpj]
            by_cases hqj : q = j
            · rw [if_pos hqj]
            · rw [if_neg hqj]
              by_cases hqj1 : q = j + 1
              · rw [if_pos hqj1]; exact le_of_lt hlt
              · rw [if_neg hqj1]; exact h2 (j + 1) q (by omega) (by omega) hq
          · rw [if_neg hpj, if_neg (by omega : ¬ q = j)]
            by_cases hpj1 : p = j + 1
            · rw [if_pos hpj1]
              by_cases hqj1 : q = j + 1
              · rw [if_pos hqj1]
              · rw [if_neg hqj1]; exact h3 j q (by omega) (by omega) (by omega) (by omega)
            · rw [if_neg hpj1, if_neg (by omega : ¬ q = j + 1)]
              exact h2 p q (by omega) hpq hq)
        (by
          intro p q hp hpj hjq hq
          rw [hr, hr, if_neg (by omega), if_neg (by omega), if_neg (by omega)]
          by_cases hqj1 : q = j + 1
          · rw [if_pos hqj1]; exact h1 p j hp (by omega) (by omega)
          · rw [if_neg hqj1]; exact h3 p q hp (by omega) (by omega) hq)
      exact ⟨hw.trans hw2, hs⟩
    · rename_i hc
      refine ⟨Within.refl _ _ _, ?_⟩
      by_cases haj : a < j + 1
      · have hle : rankAt rank data j ≤ rankAt rank data (j + 1) := by
          have : ¬ (lessAt less data (j + 1) j = true) := by
            intro h; exact hc (by rw [Bool.and_eq_true, decide_eq_true_eq]; exact ⟨haj, h⟩)
          rw [lessAt_eq less rank hless data (j + 1) j (by omega) (by omega),
            decide_eq_true_eq] at this
          omega
        intro p q hp hpq hq
        by_cases hqj : q ≤ j
        · exact h1 p q hp hpq (by omega)
        · by_cases hpj : j + 1 ≤ p
          · exact h2 p q hpj hpq hq
          · by_cases hqj1 : q = j + 1
            · subst hqj1
              exact le_trans (h1 p j hp (by omega) (by omega)) hle
            · exact h3 p q hp (by omega) (by omega) (by omega)
      · have : a = j + 1 := by omega
        subst this
        exact h2

theorem insertionOuter_spec (less : α → α → Bool) (rank : α → Int)
    (hless : ∀ x y, less x y = decide (rank x < rank y)) (a b : Nat) :
    ∀ (fuel i : Nat) (data : List α), a < i → i ≤ b → b ≤ data.length → b - i ≤ fuel →
      SortedOn rank data a i →
      Within a b data (insertionOuter less a b fuel i data) ∧
        SortedOn rank (insertionOuter less a b fuel i data) a b := by
  intro fuel
  induction fuel with
  | zero =>
    intro i data _ hib _ hf hs
    have : i = b := by omega
    subst this
    exact ⟨Within.refl _ _ _, hs⟩
  | succ fuel ih =>
    intro i data hai hib hb hf hs
    rw [insertionOuter]
    split
    · rename_i hlt
      obtain ⟨hw, hs2⟩ := insertionInner_spec less rank hless a i i data (by omega) (le_refl _)
        (by omega) hs
        (by
          intro p q hp hpq hq
          have : p = q := by omega
          subst this
          exact le_refl _)
        (by intro p q _ _ _ _; omega)
      obtain ⟨hw3, hs3⟩ := ih (i + 1) (insertionInner less a i data) (by omega) (by omega)
        (by rw [hw.len]; exact hb) (by omega) hs2
      exact ⟨(hw.mono (le_refl _) (by omega)).trans hw3, hs3⟩
    · have : i = b := by omega
      subst this
      exact ⟨Within.refl _ _ _, hs⟩

theorem insertionSort_spec (less : α → α → Bool) (rank : α → Int)
    (hless : ∀ x y, less x y = decide (rank x < rank y)) (data : List α) (a b : Nat)
    (hab : a ≤ b) (hb : b ≤ data.length) :
    Within a b data (insertionSort less data a b) ∧
      SortedOn rank (insertionSort less data a b) a b := by
  unfold insertionSort
  by_cases h : a = b
  · subst h
    rw [Nat.sub_self, insertionOuter]
    exact ⟨Within.refl _ _ _, fun i j _ _ _ => by omega⟩
  · exact insertionOuter_spec less rank hless a b (b - a) (a + 1) data (by omega) (by omega) hb
      (by omega)
      (by
        intro p q hp hpq hq
        have : p = q := by omega
        subst this
        exact le_refl _)

end InsertionProofs

section PartitionProofs

variable {α : Type}

theorem scanUp_spec (less : α → α → Bool) (rank : α → Int)
    (hless : ∀ x y, less x y = decide (rank x < rank y)) (data : List α) (a j : Nat)
    (ha : a < data.length) (hj : j < data.length) :
    ∀ (fuel i : Nat), i ≤ j + 1 → j + 1 - i ≤ fuel →
      i ≤ scanUp less data a j fuel i ∧ scanUp less data a j fuel i ≤ j + 1 ∧
      (∀ m, i ≤ m → m < scanUp less data a j fuel i → rankAt rank data m < rankAt rank data a) ∧
      (scanUp less data a j fuel i ≤ j →
        rankAt rank data a ≤ rankAt rank data (scanUp less data a j fuel i)) := by
  intro fuel
  induction fuel with
  | zero =>
    intro i hi hf
    rw [scanUp]
    exact ⟨le_refl _, hi, fun m h1 h2 => by omega, fun h => by omega⟩
  | succ fuel ih =>
    intro i hi hf
    rw [scanUp]
    split
    · rename_i hc
      rw [Bool.and_eq_true, decide_eq_true_eq,
        lessAt_eq less rank hless data i a (by omega) ha, decide_eq_true_eq] at hc
      obtain ⟨h1, h2, h3, h4⟩ := ih (i + 1) (by omega) (by omega)
      refine ⟨by omega, h2, fun m hm1 hm2 => ?_, h4⟩
      by_cases hmi : m = i
      · subst hmi; exact hc.2
      · exact h3 m (by omega) hm2
    · rename_i hc
      refine ⟨le_refl _, hi, fun m h1 h2 => by omega, fun h => ?_⟩
      have : ¬ (lessAt less data i a = true) := by
        intro hl; exact hc (by rw [Bool.and_eq_true, decide_eq_true_eq]; exact ⟨h, hl⟩)
      rw [lessAt_eq less rank hless data i a (by omega) ha, decide_eq_true_eq] at this
      omega

theorem scanDown_spec (less : α → α → Bool) (rank : α → Int)
    (hless : ∀ x y, less x y = decide (rank x < rank y)) (data : List α) (a i : Nat)
    (ha : a < data.length) :
    ∀ (j1 : Nat), j1 ≤ data.length →
      scanDown less data a i j1 ≤ j1 ∧ (i ≤ j1 → i ≤ scanDown less data a i j1) ∧
      (∀ m, scanDown less data a i j1 ≤ m → m < j1 →
        rankAt rank data a ≤ rankAt rank data m) ∧
      (i < scanDown less data a i j1 →
        rankAt rank data (scanDown less data a i j1 - 1) < rankAt rank data a) := by
  intro j1
  induction j1 with
  | zero =>
    intro _
    rw [scanDown]
    exact ⟨le_refl _, fun h => h, fun m h1 h2 => by omega, fun h => by omega⟩
  | succ j ih =>
    intro hj
    rw [scanDown]
    split
    · rename_i hc
      rw [Bool.and_eq_true, decide_eq_true_eq, Bool.not_eq_true',
        lessAt_eq less rank hless data j a (by omega) ha, decide_eq_false_iff_not] at hc
      obtain ⟨h1, h2, h3, h4⟩ := ih (by omega)
      refine ⟨by omega, fun _ => h2 hc.1, fun m hm1 hm2 => ?_, h4⟩
      by_cases hmj : m = j
      · subst hmj; omega
      · exact h3 m hm1 (by omega)
    · rename_i hc
      refine ⟨le_refl _, fun h => h, fun m h1 h2 => by omega, fun h => ?_⟩
      have : lessAt less data j a = true := by
        by_contra hl
        exact hc (by
          rw [Bool.and_eq_true, decide_eq_true_eq, Bool.not_eq_true']
          exact ⟨by omega, by simpa using hl⟩)
      rw [lessAt_eq less rank hless data j a (by omega) ha, decide_eq_true_eq] at this
      simpa using this

/-- The state of the loop of `partition_func`: the pivot is at `a`, the positions from
`a + 1` up to `i` hold smaller ranks and those from `j1` up to `b` ranks not smaller. -/
theorem partitionLoop_spec (less : α → α → Bool) (rank : α → Int)
    (hless : ∀ x y, less x y = decide (rank x < rank y)) (a b : Nat) :
    ∀ (fuel i j1 : Nat) (data : List α), a + 1 ≤ i → i ≤ j1 → j1 ≤ b → b ≤ data.length →
      j1 - i < fuel →
      (∀ m, a + 1 ≤ m → m < i → rankAt rank data m < rankAt rank data a) →
      (∀ m, j1 ≤ m → m < b → rankAt rank data a ≤ rankAt rank data m) →
      Within (a + 1) b data (partitionLoop less a fuel i j1 data).1 ∧
        a + 1 ≤ (partitionLoop less a fuel i j1 data).2 ∧
        (partitionLoop less a fuel i j1 data).2 ≤ b ∧
        (∀ m, a + 1 ≤ m → m < (partitionLoop less a fuel i j1 data).2 →
          rankAt rank (partitionLoop less a fuel i j1 data).1 m
            < rankAt rank (partitionLoop less a fuel i j1 data).1 a) ∧
        (∀ m, (partitionLoop less a fuel i j1 data).2 ≤ m → m < b →
          rankAt rank (partitionLoop less a fuel i j1 data).1 a
            ≤ rankAt rank (partitionLoop less a fuel i j1 data).1 m) := by
  intro fuel
  induction fuel with
  | zero => intro i j1 data _ _ _ _ hf; omega
  | succ fuel ih =>
    intro i j1 data hai hij hjb hb hf hL hR
    rw [partitionLoop]
    have hj1 : j1 - 1 + 1 = j1 := by omega
    obtain ⟨u1, u2, u3, u4⟩ := scanUp_spec less rank hless data a (j1 - 1) (by omega)
      (by omega) (j1 - i) i (by omega) (by omega)
    generalize scanUp less data a (j1 - 1) (j1 - i) i = i1 at u1 u2 u3 u4 ⊢
    rw [hj1] at u2
    obtain ⟨d1, d2, d3, d4⟩ := scanDown_spec less rank hless data a i1 (by omega) j1 (by omega)
    generalize scanDown less data a i1 j1 = j2 at d1 d2 d3 d4 ⊢
    have hi2 := d2 u2
    have hL1 : ∀ m, a + 1 ≤ m → m < i1 → rankAt rank data m < rankAt rank data a := by
      intro m hm1 hm2
      by_cases hmi : m < i
      · exact hL m hm1 hmi
      · exact u3 m (by omega) hm2
    have hR1 : ∀ m, j2 ≤ m → m < b → rankAt rank data a ≤ rankAt rank data m := by
      intro m hm1 hm2
      by_cases hmj : m < j1
      · exact d3 m hm1 hmj
      · exact hR m (by omega) hm2
    split
    · rename_i hc
      have : i1 = j2 := by omega
      subst this
      exact ⟨Within.refl _ _ _, by omega, by omega, hL1, hR1⟩
    · rename_i hc
      have hlt : i1 < j2 := by omega
      have ha1 := u4 (by omega)
      have ha2 := d4 hlt
      have hne : i1 ≠ j2 - 1 := by
        intro e; rw [← e] at ha2; omega
      have hr := rankAt_swap rank data i1 (j2 - 1) (by omega) (by omega)
      have hw : Within (a + 1) b data (swap data i1 (j2 - 1)) :=
        Within.swap (a + 1) b data i1 (j2 - 1) (by omega) (by omega) (by omega) (by omega) hb
      obtain ⟨w, r1, r2, r3, r4⟩ := ih (i1 + 1) (j2 - 1) (swap data i1 (j2 - 1)) (by omega)
        (by omega) (by omega) (by rw [length_swap]; exact hb) (by omega)
        (by
          intro m hm1 hm2
          rw [hr, hr, if_neg (by omega), if_neg (by omega : ¬ a = j2 - 1),
            if_neg (by omega : ¬ a = i1)]
          by_cases hmi : m = i1
          · rw [if_pos hmi]; exact ha2
          · rw [if_neg hmi]; exact hL1 m hm1 (by omega))
        (by
          intro m hm1 hm2
          rw [hr, hr, if_neg (by omega : ¬ a = j2 - 1), if_neg (by omega : ¬ a = i1)]
          by_cases hmj : m = j2 - 1
          · rw [if_pos hmj]; exact ha1
          · rw [if_neg hmj, if_neg (by omega)]; exact hR1 m (by omega) hm2)
      exact ⟨hw.trans w, r1, r2, r3, r4⟩

theorem partition_finish (rank : α → Int) (data : List α) (a b j1 : Nat)
    (haj : a + 1 ≤ j1) (hjb : j1 ≤ b) (hb : b ≤ data.length)
    (hL : ∀ m, a + 1 ≤ m → m < j1 → rankAt rank data m < rankAt rank data a)
    (hR : ∀ m, j1 ≤ m → m < b → rankAt rank data a ≤ rankAt rank data m) :
    Within a b data (swap data (j1 - 1) a) ∧
      (∀ p, a ≤ p → p < j1 - 1 →
        rankAt rank (swap data (j1 - 1) a) p < rankAt rank (swap data (j1 - 1) a) (j1 - 1)) ∧
      (∀ q, j1 - 1 < q → q < b →
        rankAt rank (swap data (j1 - 1) a) (j1 - 1) ≤ rankAt rank (swap data (j1 - 1) a) q) := by
  have hr := rankAt_swap rank data (j1 - 1) a (by omega) (by omega)
  refine ⟨Within.swap a b data (j1 - 1) a (by omega) (by omega) (by omega) (by omega) hb,
    fun p hp1 hp2 => ?_, fun q hq1 hq2 => ?_⟩
  · rw [hr, hr]
    by_cases hpa : p = a
    · rw [if_pos hpa]
      by_cases hja : j1 - 1 = a
      · omega
      · rw [if_neg hja, if_pos rfl]
        exact hL (j1 - 1) (by omega) (by omega)
    · rw [if_neg hpa, if_neg (by omega)]
      by_cases hja : j1 - 1 = a
      · omega
      · rw [if_neg hja, if_pos rfl]
        exact hL p (by omega) (by omega)
  · rw [hr, hr, if_neg (by omega : ¬ q = a), if_neg (by omega : ¬ q = j1 - 1)]
    by_cases hja : j1 - 1 = a
    · rw [if_pos hja, hja]
      exact hR q (by omega) hq2
    · rw [if_neg hja, if_pos rfl]
      exact hR q (by omega) hq2

/-- After `partition_func` the pivot is at `mid`, with smaller ranks before it and ranks
not smaller after it. -/
theorem partition_spec (less : α → α → Bool) (rank : α → Int)
    (hless : ∀ x y, less x y = decide (rank x < rank y)) (data : List α) (a b pivot : Nat)
    (hab : a < b) (hb : b ≤ data.length) (hp1 : a ≤ pivot) (hp2 : pivot < b) :
    Within a b data (partition less data a b pivot).1 ∧
      a ≤ (partition less data a b pivot).2.1 ∧ (partition less data a b pivot).2.1 < b ∧
      (∀ p, a ≤ p → p < (partition less data a b pivot).2.1 →
        rankAt rank (partition less data a b pivot).1 p
          < rankAt rank (partition less data a b pivot).1 (partition less data a b pivot).2.1) ∧
      (∀ q, (partition less data a b pivot).2.1 < q → q < b →
        rankAt rank (partition less data a b pivot).1 (partition less data a b pivot).2.1
          ≤ rankAt rank (partition less data a b pivot).1 q) := by
  unfold partition
  dsimp only
  have hw0 : Within a b data (swap data a pivot) :=
    Within.swap a b data a pivot (le_refl _) hab hp1 hp2 hb
  have hlen0 : (swap data a pivot).length = data.length := length_swap _ _ _
  generalize swap data a pivot = d0 at hw0 hlen0 ⊢
  have hb1 : b - 1 + 1 = b := by omega
  obtain ⟨u1, u2, u3, u4⟩ := scanUp_spec less rank hless d0 a (b - 1) (by omega)
    (by omega) (b - (a + 1)) (a + 1) (by omega) (by omega)
  generalize scanUp less d0 a (b - 1) (b - (a + 1)) (a + 1) = i1 at u1 u2 u3 u4 ⊢
  rw [hb1] at u2
  obtain ⟨d1, d2, d3, d4⟩ := scanDown_spec less rank hless d0 a i1 (by omega) b (by omega)
  generalize scanDown less d0 a i1 b = j2 at d1 d2 d3 d4 ⊢
  have hi2 := d2 u2
  split
  · rename_i hc
    have : i1 = j2 := by omega
    subst this
    obtain ⟨f1, f2, f3⟩ := partition_finish rank d0 a b i1 (by omega) (by omega) (by omega)
      (fun m hm1 hm2 => u3 m hm1 hm2) (fun m hm1 hm2 => d3 m hm1 hm2)
    dsimp only
    exact ⟨hw0.trans f1, by omega, by omega, f2, f3⟩
  · rename_i hc
    have hlt : i1 < j2 := by omega
    have ha1 := u4 (by omega)
    have ha2 := d4 hlt
    have hne : i1 ≠ j2 - 1 := by
      intro e; rw [← e] at ha2; omega
    have hr := rankAt_swap rank d0 i1 (j2 - 1) (by omega) (by omega)
    have hw : Within a b d0 (swap d0 i1 (j2 - 1)) :=
      Within.swap a b d0 i1 (j2 - 1) (by omega) (by omega) (by omega) (by omega) (by omega)
    obtain ⟨w, r1, r2, r3, r4⟩ := partitionLoop_spec less rank hless a b (b - a) (i1 + 1)
      (j2 - 1) (swap d0 i1 (j2 - 1)) (by omega) (by omega) (by omega)
      (by rw [length_swap]; omega) (by omega)
      (by
        intro m hm1 hm2
        rw [hr, hr, if_neg (by omega), if_neg (by omega : ¬ a = j2 - 1),
          if_neg (by omega : ¬ a = i1)]
        by_cases hmi : m = i1
        · rw [if_pos hmi]; exact ha2
        · rw [if_neg hmi]; exact u3 m hm1 (by omega))
      (by
        intro m hm1 hm2
        rw [hr, hr, if_neg (by omega : ¬ a = j2 - 1), if_neg (by omega : ¬ a = i1)]
        by_cases hmj : m = j2 - 1
        · rw [if_pos hmj]; exact ha1
        · rw [if_neg hmj, if_neg (by omega)]; exact d3 m (by omega) hm2)
    generalize partitionLoop less a (b - a) (i1 + 1) (j2 - 1) (swap d0 i1 (j2 - 1)) = res
      at w r1 r2 r3 r4 ⊢
    obtain ⟨f1, f2, f3⟩ := partition_finish rank res.1 a b res.2 r1 r2
      (by rw [w.len, length_swap]; omega) r3 r4
    dsimp only
    exact ⟨(hw0.trans (hw.trans (w.mono (by omega) (le_refl _)))).trans f1, by omega, by omega,
      f2, f3⟩

end PartitionProofs

section PartitionEqualProofs

variable {α : Type}

theorem scanUpEq_spec (less : α → α → Bool) (rank : α → Int)
    (hless : ∀ x y, less x y = decide (rank x < rank y)) (data : List α) (a j : Nat)
    (ha : a < data.length) (hj : j < data.length) :
    ∀ (fuel i : Nat), i ≤ j + 1 → j + 1 - i ≤ fuel →
      i ≤ scanUpEq less data a j fuel i ∧ scanUpEq less data a j fuel i ≤ j + 1 ∧
      (∀ m, i ≤ m → m < scanUpEq less data a j fuel i →
        rankAt rank data m ≤ rankAt rank data a) ∧
      (scanUpEq less data a j fuel i ≤ j →
        rankAt rank data a < rankAt rank data (scanUpEq less data a j fuel i)) := by
  intro fuel
  induction fuel with
  | zero =>
    intro i hi hf
    rw [scanUpEq]
    exact ⟨le_refl _, hi, fun m h1 h2 => by omega, fun h => by omega⟩
  | succ fuel ih =>
    intro i hi hf
    rw [scanUpEq]
    split
    · rename_i hc
      rw [Bool.and_eq_true, decide_eq_true_eq, Bool.not_eq_true',
        lessAt_eq less rank hless data a i ha (by omega), decide_eq_false_iff_not] at hc
      obtain ⟨h1, h2, h3, h4⟩ := ih (i + 1) (by omega) (by omega)
      refine ⟨by omega, h2, fun m hm1 hm2 => ?_, h4⟩
      by_cases hmi : m = i
      · subst hmi; omega
      · exact h3 m (by omega) hm2
    · rename_i hc
      refine ⟨le_refl _, hi, fun m h1 h2 => by omega, fun h => ?_⟩
      have : lessAt less data a i = true := by
        by_contra hl
        exact hc (by
          rw [Bool.and_eq_true, decide_eq_true_eq, Bool.not_eq_true']
          exact ⟨h, by simpa using hl⟩)
      rw [lessAt_eq less rank hless data a i ha (by omega), decide_eq_true_eq] at this
      exact this

theorem scanDownEq_spec (less : α → α → Bool) (rank : α → Int)
    (hless : ∀ x y, less x y = decide (rank x < rank y)) (data : List α) (a i : Nat)
    (ha : a < data.length) :
    ∀ (j1 : Nat), j1 ≤ data.length →
      scanDownEq less data a i j1 ≤ j1 ∧ (i ≤ j1 → i ≤ scanDownEq less data a i j1) ∧
      (∀ m, scanDownEq less data a i j1 ≤ m → m < j1 →
        rankAt rank data a < rankAt rank data m) ∧
      (i < scanDownEq less data a i j1 →
        rankAt rank data (scanDownEq less data a i j1 - 1) ≤ rankAt rank data a) := by
  intro j1
  induction j1 with
  | zero =>
    intro _
    rw [scanDownEq]
    exact ⟨le_refl _, fun h => h, fun m h1 h2 => by omega, fun h => by omega⟩
  | succ j ih =>
    intro hj
    rw [scanDownEq]
    split
    · rename_i hc
      rw [Bool.and_eq_true, decide_eq_true_eq,
        lessAt_eq less rank hless data a j ha (by omega), decide_eq_true_eq] at hc
      obtain ⟨h1, h2, h3, h4⟩ := ih (by omega)
      refine ⟨by omega, fun _ => h2 hc.1, fun m hm1 hm2 => ?_, h4⟩
      by_cases hmj : m = j
      · subst hmj; exact hc.2
      · exact h3 m hm1 (by omega)
    · rename_i hc
      refine ⟨le_refl _, fun h => h, fun m h1 h2 => by omega, fun h => ?_⟩
      have : ¬ (lessAt less data a j = true) := by
        intro hl
        exact hc (by rw [Bool.and_eq_true, decide_eq_true_eq]; exact ⟨by omega, hl⟩)
      rw [lessAt_eq less rank hless data a j ha (by omega), decide_eq_true_eq] at this
      simp only [Nat.add_sub_cancel]
      omega

theorem partitionEqualLoop_spec (less : α → α → Bool) (rank : α → Int)
    (hless : ∀ x y, less x y = decide (rank x < rank y)) (a b : Nat) :
    ∀ (fuel i j1 : Nat) (data : List α), a + 1 ≤ i → i ≤ j1 → j1 ≤ b → b ≤ data.length →
      j1 - i < fuel →
      (∀ m, a + 1 ≤ m → m < i → rankAt rank data m ≤ rankAt rank data a) →
      (∀ m, j1 ≤ m → m < b → rankAt rank data a < rankAt rank data m) →
      Within (a + 1) b data (partitionEqualLoop less a fuel i j1 data).1 ∧
        a + 1 ≤ (partitionEqualLoop less a fuel i j1 data).2 ∧
        (partitionEqualLoop less a fuel i j1 data).2 ≤ b ∧
        (∀ m, a + 1 ≤ m → m < (partitionEqualLoop less a fuel i j1 data).2 →
          rankAt rank (partitionEqualLoop less a fuel i j1 data).1 m
            ≤ rankAt rank (partitionEqualLoop less a fuel i j1 data).1 a) ∧
        (∀ m, (partitionEqualLoop less a fuel i j1 data).2 ≤ m → m < b →
          rankAt rank (partitionEqualLoop less a fuel i j1 data).1 a
            < rankAt rank (partitionEqualLoop less a fuel i j1 data).1 m) := by
  intro fuel
  induction fuel with
  | zero => intro i j1 data _ _ _ _ hf; omega
  | succ fuel ih =>
    intro i j1 data hai hij hjb hb hf hL hR
    rw [partitionEqualLoop]
    have hj1 : j1 - 1 + 1 = j1 := by omega
    obtain ⟨u1, u2, u3, u4⟩ := scanUpEq_spec less rank hless data a (j1 - 1) (by omega)
      (by omega) (j1 - i) i (by omega) (by omega)
    generalize scanUpEq less data a (j1 - 1) (j1 - i) i = i1 at u1 u2 u3 u4 ⊢
    rw [hj1] at u2
    obtain ⟨d1, d2, d3, d4⟩ := scanDownEq_spec less rank hless data a i1 (by omega) j1
      (by omega)
    generalize scanDownEq less data a i1 j1 = j2 at d1 d2 d3 d4 ⊢
    have hi2 := d2 u2
    have hL1 : ∀ m, a + 1 ≤ m → m < i1 → rankAt rank data m ≤ rankAt rank data a := by
      intro m hm1 hm2
      by_cases hmi : m < i
      · exact hL m hm1 hmi
      · exact u3 m (by omega) hm2
    have hR1 : ∀ m, j2 ≤ m → m < b → rankAt rank data a < rankAt rank data m := by
      intro m hm1 hm2
      by_cases hmj : m < j1
      · exact d3 m hm1 hmj
      · exact hR m (by omega) hm2
    split
    · rename_i hc
      have : i1 = j2 := by omega
      subst this
      exact ⟨Within.refl _ _ _, by omega, by omega, hL1, hR1⟩
    · rename_i hc
      have hlt : i1 < j2 := by omega
      have ha1 := u4 (by omega)
      have ha2 := d4 hlt
      have hne : i1 ≠ j2 - 1 := by
        intro e; rw [← e] at ha2; omega
      have hr := rankAt_swap rank data i1 (j2 - 1) (by omega) (by omega)
      have hw : Within (a + 1) b data (swap data i1 (j2 - 1)) :=
        Within.swap (a + 1) b data i1 (j2 - 1) (by omega) (by omega) (by omega) (by omega) hb
      obtain ⟨w, r1, r2, r3, r4⟩ := ih (i1 + 1) (j2 - 1) (swap data i1 (j2 - 1)) (by omega)
        (by omega) (by omega) (by rw [length_swap]; exact hb) (by omega)
        (by
          intro m hm1 hm2
          rw [hr, hr, if_neg (by omega), if_neg (by omega : ¬ a = j2 - 1),
            if_neg (by omega : ¬ a = i1)]
          by_cases hmi : m = i1
          · rw [if_pos hmi]; exact ha2
          · rw [if_neg hmi]; exact hL1 m hm1 (by omega))
        (by
          intro m hm1 hm2
          rw [hr, hr, if_neg (by omega : ¬ a = j2 - 1), if_neg (by omega : ¬ a = i1)]
          by_cases hmj : m = j2 - 1
          · rw [if_pos hmj]; exact ha1
          · rw [if_neg hmj, if_neg (by omega)]; exact hR1 m (by omega) hm2)
      exact ⟨hw.trans w, r1, r2, r3, r4⟩

/-- After `partitionEqual_func`, called with a pivot of least rank in the range, the
positions before `mid` hold that least rank and the positions from `mid` on greater
ranks. -/
theorem partitionEqual_spec (less : α → α → Bool) (rank : α → Int)
    (hless : ∀ x y, less x y = decide (rank x < rank y)) (data : List α) (a b pivot : Nat)
    (hab : a < b) (hb : b ≤ data.length) (hp1 : a ≤ pivot) (hp2 : pivot < b)
    (hmin : ∀ q, a ≤ q → q < b → rankAt rank data pivot ≤ rankAt rank data q) :
    Within a b data (partitionEqual less data a b pivot).1 ∧
      a + 1 ≤ (partitionEqual less data a b pivot).2 ∧ (partitionEqual less data a b pivot).2 ≤ b ∧
      (∀ p q, a ≤ p → p < (partitionEqual less data a b pivot).2 → a ≤ q → q < b →
        rankAt rank (partitionEqual less data a b pivot).1 p
          ≤ rankAt rank (partitionEqual less data a b pivot).1 q) := by
  unfold partitionEqual
  have hw0 : Within a b data (swap data a pivot) :=
    Within.swap a b data a pivot (le_refl _) hab hp1 hp2 hb
  have hr0 := rankAt_swap rank data a pivot (by omega) (by omega)
  obtain ⟨w, r1, r2, r3, r4⟩ := partitionEqualLoop_spec less rank hless a b (b - a) (a + 1) b
    (swap data a pivot) (le_refl _) (by omega) (le_refl _) (by rw [length_swap]; exact hb)
    (by omega) (fun m h1 h2 => by omega) (fun m h1 h2 => by omega)
  generalize partitionEqualLoop less a (b - a) (a + 1) b (swap data a pivot) = res
    at w r1 r2 r3 r4 ⊢
  have hwall : Within a b data res.1 := hw0.trans (w.mono (by omega) (le_refl _))
  refine ⟨hwall, r1, r2, fun p q hp1 hp2 hq1 hq2 => ?_⟩
  have hpiv : rankAt rank res.1 a = rankAt rank data pivot := by
    rw [w.rankAt_out rank a (Or.inl (by omega)), hr0]
    by_cases hpa : a = pivot
    · rw [if_pos hpa, hpa]
    · rw [if_neg hpa, if_pos rfl]
  have hle : rankAt rank res.1 p ≤ rankAt rank res.1 a := by
    by_cases hpa : p = a
    · rw [hpa]
    · exact r3 p (by omega) hp2
  obtain ⟨q1, hq3, hq4, e⟩ := hwall.rankAt_img rank q hq1 hq2
  rw [e]
  exact le_trans hle (by rw [hpiv]; exact hmin q1 hq3 hq4)

end PartitionEqualProofs

section PivotProofs

variable {α : Type}

theorem reverseLoop_within (a b : Nat) :
    ∀ (fuel i j : Nat) (data : List α), a ≤ i → j < b → b ≤ data.length →
      Within a b data (reverseLoop fuel i j data) := by
  intro fuel
  induction fuel with
  | zero => intro i j data _ _ _; exact Within.refl _ _ _
  | succ fuel ih =>
    intro i j data hi hj hb
    rw [reverseLoop]
    split
    · exact (Within.swap a b data i j hi (by omega) (by omega) hj hb).trans
        (ih (i + 1) (j - 1) _ (by omega) (by omega) (by rw [length_swap]; exact hb))
    · exact Within.refl _ _ _

theorem reverseRange_within (data : List α) (a b : Nat) (hab : a < b) (hb : b ≤ data.length) :
    Within a b data (reverseRange data a b) :=
  reverseLoop_within a b (b - a) a (b - 1) data (le_refl _) (by omega) hb

theorem bitsLenAux_zero (fuel : Nat) : bitsLenAux fuel 0 = 0 := by
  cases fuel <;> simp [bitsLenAux]

theorem two_pow_bitsLenAux_le :
    ∀ (fuel n : Nat), n ≤ fuel → 1 ≤ n → 2 ^ bitsLenAux fuel n ≤ 2 * n := by
  intro fuel
  induction fuel with
  | zero => intro n h1 h2; omega
  | succ fuel ih =>
    intro n h1 h2
    rw [bitsLenAux, if_neg (by omega), pow_succ]
    by_cases h : n / 2 = 0
    · rw [h, bitsLenAux_zero]; omega
    · have := ih (n / 2) (by omega) (by omega)
      omega

theorem breakPatternsLoop_within (a b modulus idx : Nat) (data0 : List α)
    (hl : 8 ≤ b - a) (hm : modulus ≤ 2 * (b - a)) (hm0 : 0 < modulus)
    (hidx : idx = a + (b - a) / 4 * 2 - 1) :
    ∀ (fuel i random : Nat) (data : List α), i + fuel ≤ 3 → b ≤ data.length →
      Within a b data0 data →
      Within a b data0 (breakPatternsLoop a (b - a) modulus idx fuel i random data) := by
  intro fuel
  induction fuel with
  | zero => intro i random data _ _ hw; exact hw
  | succ fuel ih =>
    intro i random data hi hb hw
    rw [breakPatternsLoop]
    have hlt : xorshiftNext random % modulus < modulus := Nat.mod_lt _ hm0
    generalize xorshiftNext random % modulus = other at hlt
    apply ih (i + 1) _ _ (by omega) (by rw [length_swap]; exact hb)
    refine hw.trans (Within.swap a b data _ _ ?_ ?_ ?_ ?_ hb)
    · omega
    · omega
    · omega
    · split <;> omega

theorem breakPatterns_within (data : List α) (a b : Nat) (hb : b ≤ data.length) :
    Within a b data (breakPatterns data a b) := by
  unfold breakPatterns
  split
  · rename_i h
    exact breakPatternsLoop_within a b _ _ data h
      (two_pow_bitsLenAux_le (b - a) (b - a) (le_refl _) (by omega))
      (Nat.two_pow_pos _) rfl 3 0 (b - a) data (by omega) hb (Within.refl _ _ _)
  · exact Within.refl _ _ _

theorem order2_mem (less : α → α → Bool) (data : List α) (a b swaps : Nat) :
    ((order2 less data a b swaps).1 = a ∧ (order2 less data a b swaps).2.1 = b) ∨
      ((order2 less data a b swaps).1 = b ∧ (order2 less data a b swaps).2.1 = a) := by
  unfold order2
  split
  · exact Or.inr ⟨rfl, rfl⟩
  · exact Or.inl ⟨rfl, rfl⟩

theorem median_mem (less : α → α → Bool) (data : List α) (a b c swaps : Nat) :
    (median less data a b c swaps).1 = a ∨ (median less data a b c swaps).1 = b ∨
      (median less data a b c swaps).1 = c := by
  unfold median
  dsimp only
  have h1 := order2_mem less data a b swaps
  generalize order2 less data a b swaps = r1 at h1 ⊢
  have h2 := order2_mem less data r1.2.1 c r1.2.2
  generalize order2 less data r1.2.1 c r1.2.2 = r2 at h2 ⊢
  have h3 := order2_mem less data r1.1 r2.1 r2.2.2
  generalize order2 less data r1.1 r2.1 r2.2.2 = r3 at h3 ⊢
  omega

theorem choosePivot_mem (less : α → α → Bool) (data : List α) (a b : Nat) (hl : 8 ≤ b - a) :
    a ≤ (choosePivot less data a b).1 ∧ (choosePivot less data a b).1 < b := by
  have key : ∀ r : Nat × Nat, (a ≤ r.1 ∧ r.1 < b) →
      a ≤ (if r.2 = 0 then (r.1, SortedHint.increasingHint)
            else if r.2 = 12 then (r.1, SortedHint.decreasingHint)
            else (r.1, SortedHint.unknownHint)).1 ∧
        (if r.2 = 0 then (r.1, SortedHint.increasingHint)
            else if r.2 = 12 then (r.1, SortedHint.decreasingHint)
            else (r.1, SortedHint.unknownHint)).1 < b := by
    intro r hr
    split
    · exact hr
    · split <;> exact hr
  unfold choosePivot
  dsimp only
  apply key
  rw [if_pos hl]
  split
  · rename_i h50
    unfold medianAdjacent
    have m1 := median_mem less data (a + (b - a) / 4 * 1 - 1) (a + (b - a) / 4 * 1)
      (a + (b - a) / 4 * 1 + 1) 0
    generalize median less data (a + (b - a) / 4 * 1 - 1) (a + (b - a) / 4 * 1)
      (a + (b - a) / 4 * 1 + 1) 0 = r1 at m1 ⊢
    have m2 := median_mem less data (a + (b - a) / 4 * 2 - 1) (a + (b - a) / 4 * 2)
      (a + (b - a) / 4 * 2 + 1) r1.2
    generalize median less data (a + (b - a) / 4 * 2 - 1) (a + (b - a) / 4 * 2)
      (a + (b - a) / 4 * 2 + 1) r1.2 = r2 at m2 ⊢
    have m3 := median_mem less data (a + (b - a) / 4 * 3 - 1) (a + (b - a) / 4 * 3)
      (a + (b - a) / 4 * 3 + 1) r2.2
    generalize median less data (a + (b - a) / 4 * 3 - 1) (a + (b - a) / 4 * 3)
      (a + (b - a) / 4 * 3 + 1) r2.2 = r3 at m3 ⊢
    have m4 := median_mem less data r1.1 r2.1 r3.1 r3.2
    generalize median less data r1.1 r2.1 r3.1 r3.2 = r4 at m4 ⊢
    omega
  · have m := median_mem less data (a + (b - a) / 4 * 1) (a + (b - a) / 4 * 2)
      (a + (b - a) / 4 * 3) 0
    generalize median less data (a + (b - a) / 4 * 1) (a + (b - a) / 4 * 2)
      (a + (b - a) / 4 * 3) 0 = r at m ⊢
    omega

end PivotProofs

section PartialInsertionProofs

variable {α : Type}

theorem SortedOn.extend (rank : α → Int) (data : List α) (a i : Nat) (hai : a < i)
    (hs : SortedOn rank data a i) (hle : rankAt rank data (i - 1) ≤ rankAt rank data i) :
    SortedOn rank data a (i + 1) := by
  intro p q hp hpq hq
  by_cases hqi : q < i
  · exact hs p q hp hpq hqi
  · have hq2 : q = i := by omega
    subst hq2
    by_cases hpi : p = q
    · rw [hpi]
    · exact le_trans (hs p (q - 1) hp (by omega) (by omega)) hle

theorem SortedOn.of_within_out (rank : α → Int) {d1 d2 : List α} {lo hi a b : Nat}
    (h : Within lo hi d1 d2) (hs : SortedOn rank d1 a b) (hd : b ≤ lo ∨ hi ≤ a) :
    SortedOn rank d2 a b := by
  intro p q hp hpq hq
  rw [h.rankAt_out rank p (by omega), h.rankAt_out rank q (by omega)]
  exact hs p q hp hpq hq

theorem scanSorted_spec (less : α → α → Bool) (rank : α → Int)
    (hless : ∀ x y, less x y = decide (rank x < rank y)) (data : List α) (a b : Nat)
    (hb : b ≤ data.length) :
    ∀ (fuel i : Nat), a < i → i ≤ b → b - i ≤ fuel → SortedOn rank data a i →
      i ≤ scanSorted less data b fuel i ∧ scanSorted less data b fuel i ≤ b ∧
      SortedOn rank data a (scanSorted less data b fuel i) ∧
      (scanSorted less data b fuel i < b →
        rankAt rank data (scanSorted less data b fuel i)
          < rankAt rank data (scanSorted less data b fuel i - 1)) := by
  intro fuel
  induction fuel with
  | zero =>
    intro i hai hib hf hs
    rw [scanSorted]
    exact ⟨le_refl _, hib, hs, fun h => by omega⟩
  | succ fuel ih =>
    intro i hai hib hf hs
    rw [scanSorted]
    split
    · rename_i hc
      rw [Bool.and_eq_true, decide_eq_true_eq, Bool.not_eq_true',
        lessAt_eq less rank hless data i (i - 1) (by omega) (by omega),
        decide_eq_false_iff_not] at hc
      obtain ⟨h1, h2, h3, h4⟩ := ih (i + 1) (by omega) (by omega) (by omega)
        (SortedOn.extend rank data a i hai hs (by omega))
      exact ⟨by omega, h2, h3, h4⟩
    · rename_i hc
      refine ⟨le_refl _, hib, hs, fun h => ?_⟩
      have : lessAt less data i (i - 1) = true := by
        by_contra hl
        exact hc (by
          rw [Bool.and_eq_true, decide_eq_true_eq, Bool.not_eq_true']
          exact ⟨h, by simpa using hl⟩)
      rw [lessAt_eq less rank hless data i (i - 1) (by omega) (by omega),
        decide_eq_true_eq] at this
      exact this

theorem shiftLeft_eq_insertionInner (less : α → α → Bool) (rank : α → Int)
    (hless : ∀ x y, less x y = decide (rank x < rank y)) (a b : Nat) :
    ∀ (j : Nat) (data : List α), a ≤ j → j < b → b ≤ data.length →
      LeftBound rank data a b → shiftLeft less j data = insertionInner less a j data := by
  intro j
  induction j with
  | zero => intro data _ _ _ _; rfl
  | succ j ih =>
    intro data haj hjb hb hl
    rw [shiftLeft, insertionInner]
    by_cases ha : a < j + 1
    · by_cases hc : lessAt less data (j + 1) j = true
      · rw [if_neg (by simp [hc]), if_pos (by simp [hc, ha])]
        exact ih _ (by omega) (by omega) (by rw [length_swap]; exact hb)
          ((Within.swap a b data (j + 1) j (by omega) hjb (by omega) (by omega) hb).leftBound
            rank hl)
      · rw [if_pos (by simpa using hc), if_neg (by simp [hc])]
    · have hle := hl j (j + 1) (by omega) (by omega) hjb
      have hc : ¬ (lessAt less data (j + 1) j = true) := by
        rw [lessAt_eq less rank hless data (j + 1) j (by omega) (by omega), decide_eq_true_eq]
        omega
      rw [if_pos (by simpa using hc), if_neg (by simp [ha])]

theorem shiftRight_within (less : α → α → Bool) (lo b : Nat) :
    ∀ (fuel j : Nat) (data : List α), lo < j → b ≤ data.length →
      Within lo b data (shiftRight less b fuel j data) := by
  intro fuel
  induction fuel with
  | zero => intro j data _ _; exact Within.refl _ _ _
  | succ fuel ih =>
    intro j data hj hb
    rw [shiftRight]
    split
    · split
      · exact Within.refl _ _ _
      · exact (Within.swap lo b data j (j - 1) (by omega) (by omega) (by omega) (by omega)
          hb).trans (ih (j + 1) _ (by omega) (by rw [length_swap]; exact hb))
    · exact Within.refl _ _ _

theorem partialInsertionLoop_spec (less : α → α → Bool) (rank : α → Int)
    (hless : ∀ x y, less x y = decide (rank x < rank y)) (a b : Nat) :
    ∀ (steps i : Nat) (data : List α), a < i → i ≤ b → b ≤ data.length →
      SortedOn rank data a i → LeftBound rank data a b →
      Within a b data (partialInsertionLoop less a b steps i data).1 ∧
        ((partialInsertionLoop less a b steps i data).2 = true →
          SortedOn rank (partialInsertionLoop less a b steps i data).1 a b) := by
  intro steps
  induction steps with
  | zero =>
    intro i data _ _ _ _ _
    rw [partialInsertionLoop]
    exact ⟨Within.refl _ _ _, fun h => by cases h⟩
  | succ steps ih =>
    intro i data hai hib hb hs hl
    rw [partialInsertionLoop]
    obtain ⟨s1, s2, s3, s4⟩ := scanSorted_spec less rank hless data a b hb (b - i) i hai hib
      (le_refl _) hs
    generalize scanSorted less data b (b - i) i = i1 at s1 s2 s3 s4 ⊢
    dsimp only
    split
    · rename_i h
      subst h
      exact ⟨Within.refl _ _ _, fun _ => s3⟩
    · rename_i hne
      split
      · exact ⟨Within.refl _ _ _, fun h => by cases h⟩
      · have hw1 : Within a b data (swap data i1 (i1 - 1)) :=
          Within.swap a b data i1 (i1 - 1) (by omega) (by omega) (by omega) (by omega) hb
        have hr := rankAt_swap rank data i1 (i1 - 1) (by omega) (by omega)
        have hlen1 : (swap data i1 (i1 - 1)).length = data.length := length_swap _ _ _
        have hs1 : SortedOn rank (swap data i1 (i1 - 1)) a (i1 - 1) := by
          intro p q hp hpq hq
          rw [hr, hr, if_neg (by omega), if_neg (by omega), if_neg (by omega),
            if_neg (by omega)]
          exact s3 p q hp hpq (by omega)
        generalize swap data i1 (i1 - 1) = d1 at hw1 hlen1 hs1 ⊢
        have hl1 : LeftBound rank d1 a b := hw1.leftBound rank hl
        have h2 : Within a b d1 (if 2 ≤ i1 - a then shiftLeft less (i1 - 1) d1 else d1) ∧
            SortedOn rank (if 2 ≤ i1 - a then shiftLeft less (i1 - 1) d1 else d1) a i1 := by
          split
          · rw [shiftLeft_eq_insertionInner less rank hless a b (i1 - 1) d1 (by omega)
              (by omega) (by omega) hl1]
            obtain ⟨w, s⟩ := insertionInner_spec less rank hless a (i1 - 1) (i1 - 1) d1
              (by omega) (le_refl _) (by omega) hs1
              (by
                intro p q hp hpq hq
                have : p = q := by omega
                subst this
                exact le_refl _)
              (by intro p q _ _ _ _; omega)
            have e : i1 - 1 + 1 = i1 := by omega
            rw [e] at w s
            exact ⟨w.mono (le_refl _) (by omega), s⟩
          · refine ⟨Within.refl _ _ _, ?_⟩
            intro p q hp hpq hq
            have : p = q := by omega
            subst this
            exact le_refl _
        obtain ⟨hw2, hs2⟩ := h2
        generalize (if 2 ≤ i1 - a then shiftLeft less (i1 - 1) d1 else d1) = d2 at hw2 hs2 ⊢
        have hlen2 : d2.length = data.length := by rw [hw2.len, hlen1]
        have h3 : Within i1 b d2
            (if 2 ≤ b - i1 then shiftRight less b (b - i1) (i1 + 1) d2 else d2) := by
          split
          · exact shiftRight_within less i1 b (b - i1) (i1 + 1) d2 (by omega) (by omega)
          · exact Within.refl _ _ _
        generalize (if 2 ≤ b - i1 then shiftRight less b (b - i1) (i1 + 1) d2 else d2) = d3
          at h3 ⊢
        have hwall : Within a b data d3 := hw1.trans (hw2.trans (h3.mono (by omega) (le_refl _)))
        obtain ⟨w, s⟩ := ih i1 d3 (by omega) s2 (by rw [hwall.len]; exact hb)
          (SortedOn.of_within_out rank h3 hs2 (Or.inl (le_refl _))) (hwall.leftBound rank hl)
        exact ⟨hwall.trans w, s⟩

theorem partialInsertionSort_spec (less : α → α → Bool) (rank : α → Int)
    (hless : ∀ x y, less x y = decide (rank x < rank y)) (data : List α) (a b : Nat)
    (hab : a < b) (hb : b ≤ data.length) (hl : LeftBound rank data a b) :
    Within a b data (partialInsertionSort less data a b).1 ∧
      ((partialInsertionSort less data a b).2 = true →
        SortedOn rank (partialInsertionSort less data a b).1 a b) := by
  unfold partialInsertionSort
  apply partialInsertionLoop_spec less rank hless a b 5 (a + 1) data (by omega) (by omega) hb
    _ hl
  intro p q hp hpq hq
  have : p = q := by omega
  subst this
  exact le_refl _

end PartialInsertionProofs

section HeapProofs

variable {α : Type}

theorem heapExcept_swap (rank : α → Int) (data : List α) (first lo hi root c : Nat)
    (hlo : lo ≤ root) (hlen : first + hi ≤ data.length) (hc : c = 2 * root + 1 ∨ c = 2 * root + 2)
    (hchi : c < hi)
    (hl : 2 * root + 1 < hi →
      rankAt rank data (first + (2 * root + 1)) ≤ rankAt rank data (first + c))
    (hr : 2 * root + 2 < hi →
      rankAt rank data (first + (2 * root + 2)) ≤ rankAt rank data (first + c))
    (hlt : rankAt rank data (first + root) < rankAt rank data (first + c))
    (hE : HeapExcept rank data first lo hi root) :
    HeapExcept rank (swap data (first + root) (first + c)) first lo hi c := by
  have hR : ∀ k, rankAt rank (swap data (first + root) (first + c)) (first + k)
      = if k = c then rankAt rank data (first + root)
        else if k = root then rankAt rank data (first + c) else rankAt rank data (first + k) := by
    intro k
    rw [rankAt_swap rank data (first + root) (first + c) (by omega) (by omega)]
    by_cases h1 : k = c
    · rw [if_pos (by omega), if_pos h1]
    · rw [if_neg (by omega), if_neg h1]
      by_cases h2 : k = root
      · rw [if_pos (by omega), if_pos h2]
      · rw [if_neg (by omega), if_neg h2]
  obtain ⟨hE1, hE2⟩ := hE
  constructor
  · intro k hk hkc
    by_cases hkr : k = root
    · subst hkr
      constructor
      · intro h1
        rw [hR, hR k, if_neg hkc, if_pos rfl]
        by_cases h : 2 * k + 1 = c
        · rw [if_pos h]; exact le_of_lt hlt
        · rw [if_neg h, if_neg (by omega)]; exact hl h1
      · intro h2
        rw [hR, hR k, if_neg hkc, if_pos rfl]
        by_cases h : 2 * k + 2 = c
        · rw [if_pos h]; exact le_of_lt hlt
        · rw [if_neg h, if_neg (by omega)]; exact hr h2
    · constructor
      · intro h1
        rw [hR, hR k, if_neg hkc, if_neg hkr, if_neg (by omega)]
        by_cases h : 2 * k + 1 = root
        · rw [if_pos h]
          rcases hc with hc | hc
          · rw [hc]; exact ((hE2 k hk (Or.inl h)).1 (by omega))
          · rw [hc]; exact ((hE2 k hk (Or.inl h)).2 (by omega))
        · rw [if_neg h]; exact (hE1 k hk hkr).1 h1
      · intro h2
        rw [hR, hR k, if_neg hkc, if_neg hkr, if_neg (by omega)]
        by_cases h : 2 * k + 2 = root
        · rw [if_pos h]
          rcases hc with hc | hc
          · rw [hc]; exact ((hE2 k hk (Or.inr h)).1 (by omega))
          · rw [hc]; exact ((hE2 k hk (Or.inr h)).2 (by omega))
        · rw [if_neg h]; exact (hE1 k hk hkr).2 h2
  · intro k hk hkc
    have hkr : k = root := by omega
    subst hkr
    constructor
    · intro h1
      rw [hR, hR k, if_neg (by omega), if_neg (by omega), if_neg (by omega), if_pos rfl]
      exact (hE1 c (by omega) (by omega)).1 h1
    · intro h2
      rw [hR, hR k, if_neg (by omega), if_neg (by omega), if_neg (by omega), if_pos rfl]
      exact (hE1 c (by omega) (by omega)).2 h2

theorem siftDown_spec (less : α → α → Bool) (rank : α → Int)
    (hless : ∀ x y, less x y = decide (rank x < rank y)) (hi first lo : Nat) :
    ∀ (fuel root : Nat) (data : List α), lo ≤ root → hi - root ≤ fuel →
      first + hi ≤ data.length → HeapExcept rank data first lo hi root →
      Within (first + lo) (first + hi) data (siftDown less hi first fuel root data) ∧
        HeapFrom rank (siftDown less hi first fuel root data) first lo hi := by
  intro fuel
  induction fuel with
  | zero =>
    intro root data hlo hf hlen hE
    rw [siftDown]
    refine ⟨Within.refl _ _ _, fun k hk => ?_⟩
    by_cases hkr : k = root
    · exact ⟨fun h => by omega, fun h => by omega⟩
    · exact hE.1 k hk hkr
  | succ fuel ih =>
    intro root data hlo hf hlen hE
    rw [siftDown]
    split
    · rename_i hnc
      refine ⟨Within.refl _ _ _, fun k hk => ?_⟩
      by_cases hkr : k = root
      · exact ⟨fun h => by omega, fun h => by omega⟩
      · exact hE.1 k hk hkr
    · rename_i hnc
      dsimp only
      have hsel : ∃ c, (if (2 * root + 2 < hi &&
            lessAt less data (first + (2 * root + 1)) (first + (2 * root + 2))) = true
          then 2 * root + 2 else 2 * root + 1) = c ∧ (c = 2 * root + 1 ∨ c = 2 * root + 2) ∧
          c < hi ∧
          (2 * root + 1 < hi →
            rankAt rank data (first + (2 * root + 1)) ≤ rankAt rank data (first + c)) ∧
          (2 * root + 2 < hi →
            rankAt rank data (first + (2 * root + 2)) ≤ rankAt rank data (first + c)) := by
        split
        · rename_i hc
          rw [Bool.and_eq_true, decide_eq_true_eq,
            lessAt_eq less rank hless data _ _ (by omega) (by omega), decide_eq_true_eq] at hc
          exact ⟨_, rfl, Or.inr rfl, hc.1, fun _ => le_of_lt hc.2, fun _ => le_refl _⟩
        · rename_i hc
          refine ⟨_, rfl, Or.inl rfl, by omega, fun _ => le_refl _, fun h2 => ?_⟩
          have : ¬ (lessAt less data (first + (2 * root + 1)) (first + (2 * root + 2)) = true) := by
            intro hl
            exact hc (by rw [Bool.and_eq_true, decide_eq_true_eq]; exact ⟨h2, hl⟩)
          rw [lessAt_eq less rank hless data _ _ (by omega) (by omega), decide_eq_true_eq] at this
          omega
      obtain ⟨c, hce, hc, hchi, hl, hr⟩ := hsel
      rw [hce]
      split
      · rename_i hnl
        rw [Bool.not_eq_true', lessAt_eq less rank hless data _ _ (by omega) (by omega),
          decide_eq_false_iff_not] at hnl
        refine ⟨Within.refl _ _ _, fun k hk => ?_⟩
        by_cases hkr : k = root
        · subst hkr
          exact ⟨fun h => le_trans (hl h) (by omega), fun h => le_trans (hr h) (by omega)⟩
        · exact hE.1 k hk hkr
      · rename_i hnl
        have hlt : rankAt rank data (first + root) < rankAt rank data (first + c) := by
          have : lessAt less data (first + root) (first + c) = true := by
            by_contra h
            exact hnl (by simpa using h)
          rw [lessAt_eq less rank hless data _ _ (by omega) (by omega), decide_eq_true_eq] at this
          exact this
        obtain ⟨w, hh⟩ := ih c (swap data (first + root) (first + c)) (by omega) (by omega)
          (by rw [length_swap]; exact hlen)
          (heapExcept_swap rank data first lo hi root c hlo hlen hc hchi hl hr hlt hE)
        exact ⟨(Within.swap (first + lo) (first + hi) data (first + root) (first + c) (by omega)
          (by omega) (by omega) (by omega) hlen).trans w, hh⟩

theorem heapBuild_spec (less : α → α → Bool) (rank : α → Int)
    (hless : ∀ x y, less x y = decide (rank x < rank y)) (hi first : Nat) :
    ∀ (i : Nat) (data : List α), first + hi ≤ data.length →
      HeapFrom rank data first (i + 1) hi →
      Within first (first + hi) data (heapBuild less hi first i data) ∧
        HeapFrom rank (heapBuild less hi first i data) first 0 hi := by
  have hex : ∀ (i : Nat) (data : List α), HeapFrom rank data first (i + 1) hi →
      HeapExcept rank data first i hi i := by
    intro i data h
    exact ⟨fun k hk hki => h k (by omega), fun k hk hki => by omega⟩
  intro i
  induction i with
  | zero =>
    intro data hlen h
    rw [heapBuild]
    obtain ⟨w, hh⟩ := siftDown_spec less rank hless hi first 0 hi 0 data (le_refl _) (by omega)
      hlen (hex 0 data h)
    exact ⟨by simpa using w, hh⟩
  | succ i ih =>
    intro data hlen h
    rw [heapBuild]
    obtain ⟨w, hh⟩ := siftDown_spec less rank hless hi first (i + 1) hi (i + 1) data (le_refl _)
      (by omega) hlen (hex (i + 1) data h)
    obtain ⟨w2, hh2⟩ := ih _ (by rw [w.len]; exact hlen) hh
    exact ⟨(w.mono (by omega) (le_refl _)).trans w2, hh2⟩

theorem heap_root_max (rank : α → Int) (data : List α) (first n : Nat)
    (h : HeapFrom rank data first 0 n) :
    ∀ k, k < n → rankAt rank data (first + k) ≤ rankAt rank data (first + 0) := by
  intro k
  induction k using Nat.strong_induction_on with
  | _ k ih =>
    intro hk
    by_cases hk0 : k = 0
    · subst hk0; exact le_refl _
    · have hp := ih ((k - 1) / 2) (by omega) (by omega)
      have hh := h ((k - 1) / 2) (Nat.zero_le _)
      by_cases hodd : 2 * ((k - 1) / 2) + 1 = k
      · have := hh.1 (by omega)
        rw [hodd] at this
        exact le_trans this hp
      · have hev : 2 * ((k - 1) / 2) + 2 = k := by omega
        have := hh.2 (by omega)
        rw [hev] at this
        exact le_trans this hp

end HeapProofs

section HeapSortProofs

variable {α : Type}

theorem heapPop_spec (less : α → α → Bool) (rank : α → Int)
    (hless : ∀ x y, less x y = decide (rank x < rank y)) (first hi : Nat) :
    ∀ (i : Nat) (data : List α), i < hi → first + hi ≤ data.length →
      HeapFrom rank data first 0 (i + 1) →
      (∀ s t, i + 1 ≤ s → s ≤ t → t < hi →
        rankAt rank data (first + s) ≤ rankAt rank data (first + t)) →
      (∀ k t, k < i + 1 → i + 1 ≤ t → t < hi →
        rankAt rank data (first + k) ≤ rankAt rank data (first + t)) →
      Within first (first + hi) data (heapPop less first i data) ∧
        (∀ s t, s ≤ t → t < hi →
          rankAt rank (heapPop less first i data) (first + s)
            ≤ rankAt rank (heapPop less first i data) (first + t)) := by
  intro i
  induction i with
  | zero =>
    intro data hi0 hlen _ htail hcross
    rw [heapPop, siftDown]
    have hr := rankAt_swap rank data first first (by omega) (by omega)
    refine ⟨Within.swap first (first + hi) data first first (le_refl _) (by omega) (le_refl _)
      (by omega) hlen, fun s t hst ht => ?_⟩
    have e : ∀ m, rankAt rank (swap data first first) m = rankAt rank data m := by
      intro m
      rw [hr]
      by_cases h : m = first
      · rw [if_pos h, h]
      · rw [if_neg h, if_neg h]
    rw [e, e]
    by_cases hs : s = 0
    · subst hs
      by_cases ht0 : t = 0
      · subst ht0; exact le_refl _
      · exact hcross 0 t (by omega) (by omega) ht
    · exact htail s t (by omega) hst ht
  | succ i ih =>
    intro data hi1 hlen hheap htail hcross
    rw [heapPop]
    have hR : ∀ k, rankAt rank (swap data first (first + (i + 1))) (first + k)
        = if k = i + 1 then rankAt rank data (first + 0)
          else if k = 0 then rankAt rank data (first + (i + 1))
          else rankAt rank data (first + k) := by
      intro k
      rw [rankAt_swap rank data first (first + (i + 1)) (by omega) (by omega)]
      by_cases h1 : k = i + 1
      · rw [if_pos (by omega), if_pos h1]; rfl
      · rw [if_neg (by omega), if_neg h1]
        by_cases h2 : k = 0
        · rw [if_pos (by omega), if_pos h2]
        · rw [if_neg (by omega), if_neg h2]
    have hw1 : Within first (first + hi) data (swap data first (first + (i + 1))) :=
      Within.swap first (first + hi) data first (first + (i + 1)) (le_refl _) (by omega)
        (by omega) (by omega) hlen
    have hlen1 : (swap data first (first + (i + 1))).length = data.length := length_swap _ _ _
    generalize swap data first (first + (i + 1)) = d1 at hR hw1 hlen1 ⊢
    have hE : HeapExcept rank d1 first 0 (i + 1) 0 := by
      constructor
      · intro k _ hk0
        constructor
        · intro h1
          rw [hR, hR k, if_neg (by omega), if_neg (by omega), if_neg (by omega),
            if_neg (by omega)]
          exact (hheap k (Nat.zero_le _)).1 (by omega)
        · intro h2
          rw [hR, hR k, if_neg (by omega), if_neg (by omega), if_neg (by omega),
            if_neg (by omega)]
          exact (hheap k (Nat.zero_le _)).2 (by omega)
      · intro k _ hk
        omega
    obtain ⟨w2, hheap2⟩ := siftDown_spec less rank hless (i + 1) first 0 (i + 1) 0 d1 (le_refl _)
      (by omega) (by omega) hE
    generalize siftDown less (i + 1) first (i + 1) 0 d1 = d2 at w2 hheap2 ⊢
    rw [Nat.add_zero] at w2
    have hout : ∀ t, i + 1 ≤ t → rankAt rank d2 (first + t)
        = if t = i + 1 then rankAt rank data (first + 0) else rankAt rank data (first + t) := by
      intro t ht
      rw [w2.rankAt_out rank (first + t) (Or.inr (by omega)), hR]
      by_cases h : t = i + 1
      · rw [if_pos h, if_pos h]
      · rw [if_neg h, if_neg h, if_neg (by omega)]
    have hmax := heap_root_max rank data first (i + 1 + 1) hheap
    have hin : ∀ k, k < i + 1 → ∃ k2, k2 < i + 1 + 1 ∧
        rankAt rank d2 (first + k) = rankAt rank data (first + k2) := by
      intro k hk
      obtain ⟨m1, hm1, hm2, e⟩ := w2.rankAt_img rank (first + k) (by omega) (by omega)
      have em : m1 = first + (m1 - first) := by omega
      rw [em, hR] at e
      rw [if_neg (by omega)] at e
      by_cases h0 : m1 - first = 0
      · rw [if_pos h0] at e
        exact ⟨i + 1, by omega, e⟩
      · rw [if_neg h0] at e
        exact ⟨m1 - first, by omega, e⟩
    obtain ⟨w3, hs3⟩ := ih d2 (by omega) (by rw [w2.len, hlen1]; exact hlen) hheap2
      (by
        intro s t hs hst ht
        rw [hout s hs, hout t (by omega)]
        by_cases hs1 : s = i + 1
        · rw [if_pos hs1]
          by_cases ht1 : t = i + 1
          · rw [if_pos ht1]
          · rw [if_neg ht1]; exact hcross 0 t (by omega) (by omega) ht
        · rw [if_neg hs1, if_neg (by omega)]
          exact htail s t (by omega) hst ht)
      (by
        intro k t hk ht1 ht2
        obtain ⟨k2, hk2, e⟩ := hin k hk
        rw [e, hout t ht1]
        by_cases ht : t = i + 1
        · rw [if_pos ht]; exact hmax k2 hk2
        · rw [if_neg ht]; exact hcross k2 t hk2 (by omega) ht2)
    exact ⟨hw1.trans ((w2.mono (le_refl _) (by omega)).trans w3), hs3⟩

theorem heapSort_spec (less : α → α → Bool) (rank : α → Int)
    (hless : ∀ x y, less x y = decide (rank x < rank y)) (data : List α) (a b : Nat)
    (hab : a ≤ b) (hb : b ≤ data.length) :
    Within a b data (heapSort less data a b) ∧ SortedOn rank (heapSort less data a b) a b := by
  unfold heapSort
  split
  · exact ⟨Within.refl _ _ _, fun p q _ _ _ => by omega⟩
  · rename_i hne
    have hab2 : a + (b - a) = b := by omega
    obtain ⟨w1, hh1⟩ := heapBuild_spec less rank hless (b - a) a ((b - a - 1) / 2) data (by omega)
      (fun k hk => ⟨fun h => by omega, fun h => by omega⟩)
    generalize heapBuild less (b - a) a ((b - a - 1) / 2) data = d1 at w1 hh1 ⊢
    have e1 : b - a - 1 + 1 = b - a := by omega
    obtain ⟨w2, hs2⟩ := heapPop_spec less rank hless a (b - a) (b - a - 1) d1 (by omega)
      (by rw [w1.len]; omega) (by rw [e1]; exact hh1) (fun s t _ _ _ => by omega)
      (fun k t _ _ _ => by omega)
    rw [hab2] at w1 w2
    refine ⟨w1.trans w2, fun p q hp hpq hq => ?_⟩
    have := hs2 (p - a) (q - a) (by omega) (by omega)
    have ep : a + (p - a) = p := by omega
    have eq : a + (q - a) = q := by omega
    rw [ep, eq] at this
    exact this

end HeapSortProofs

section PdqsortProofs

variable {α : Type}

/-- Two sorted parts around a pivot, with smaller ranks before the pivot and ranks not
smaller after it, make a sorted range. -/
theorem SortedOn.around_pivot (rank : α → Int) (d0 res : List α) (a mid b : Nat)
    (hL : ∀ p, a ≤ p → p < mid → rankAt rank d0 p < rankAt rank d0 mid)
    (hR : ∀ q, mid < q → q < b → rankAt rank d0 mid ≤ rankAt rank d0 q)
    (hm : rankAt rank res mid = rankAt rank d0 mid)
    (hleft : ∀ p, a ≤ p → p < mid → ∃ p1, a ≤ p1 ∧ p1 < mid ∧ rankAt rank res p = rankAt rank d0 p1)
    (hright : ∀ q, mid < q → q < b →
      ∃ q1, mid < q1 ∧ q1 < b ∧ rankAt rank res q = rankAt rank d0 q1)
    (hs1 : SortedOn rank res a mid) (hs2 : SortedOn rank res (mid + 1) b) :
    SortedOn rank res a b := by
  intro p q hp hpq hq
  by_cases hqm : q < mid
  · exact hs1 p q hp hpq hqm
  · by_cases hpm : mid < p
    · exact hs2 p q (by omega) hpq hq
    · by_cases hp2 : p = mid
      · subst hp2
        by_cases hq2 : q = p
        · rw [hq2]
        · obtain ⟨q1, h1, h2, e⟩ := hright q (by omega) hq
          rw [e, hm]
          exact hR q1 h1 h2
      · obtain ⟨p1, h1, h2, e⟩ := hleft p hp (by omega)
        rw [e]
        by_cases hq2 : q = mid
        · rw [hq2, hm]
          exact le_of_lt (hL p1 h1 h2)
        · obtain ⟨q1, h3, h4, e2⟩ := hright q (by omega) hq
          rw [e2]
          exact le_trans (le_of_lt (hL p1 h1 h2)) (hR q1 h3 h4)

/-- The loop of `pdqsort_func` sorts the range it is called on, and moves nothing else. -/
theorem pdqsort_spec (less : α → α → Bool) (rank : α → Int)
    (hless : ∀ x y, less x y = decide (rank x < rank y)) :
    ∀ (fuel : Nat) (data : List α) (a b limit : Nat) (wasBalanced wasPartitioned : Bool),
      a ≤ b → b ≤ data.length → b - a < fuel → LeftBound rank data a b →
      Within a b data (pdqsort less fuel data a b limit wasBalanced wasPartitioned) ∧
        SortedOn rank (pdqsort less fuel data a b limit wasBalanced wasPartitioned) a b := by
  intro fuel
  induction fuel with
  | zero => intro data a b limit wb wp _ _ hf; omega
  | succ fuel ih =>
    intro data a b limit wb wp hab hb hf hlb
    rw [pdqsort]
    split
    · exact insertionSort_spec less rank hless data a b hab hb
    · rename_i hlen12
      split
      · exact heapSort_spec less rank hless data a b hab hb
      · dsimp only
        have hw1 : Within a b data (if wb = true then data else breakPatterns data a b) := by
          split
          · exact Within.refl _ _ _
          · exact breakPatterns_within data a b hb
        generalize (if wb = true then data else breakPatterns data a b) = data1 at hw1 ⊢
        generalize (if wb = true then limit else limit - 1) = limit1
        have hb1 : b ≤ data1.length := by rw [hw1.len]; exact hb
        have hpm := choosePivot_mem less data1 a b (by omega)
        generalize choosePivot less data1 a b = ph at hpm ⊢
        have hw2 : Within a b data1
            (if ph.2 = SortedHint.decreasingHint then reverseRange data1 a b else data1) := by
          split
          · exact reverseRange_within data1 a b (by omega) hb1
          · exact Within.refl _ _ _
        generalize (if ph.2 = SortedHint.decreasingHint then reverseRange data1 a b else data1)
          = data2 at hw2 ⊢
        have hpiv : a ≤ (if ph.2 = SortedHint.decreasingHint then b - 1 - (ph.1 - a) else ph.1) ∧
            (if ph.2 = SortedHint.decreasingHint then b - 1 - (ph.1 - a) else ph.1) < b := by
          split <;> omega
        generalize (if ph.2 = SortedHint.decreasingHint then b - 1 - (ph.1 - a) else ph.1)
          = pivot at hpiv ⊢
        generalize (if ph.2 = SortedHint.decreasingHint then SortedHint.increasingHint else ph.2)
          = hint
        have hw12 : Within a b data data2 := hw1.trans hw2
        have hb2 : b ≤ data2.length := by rw [hw12.len]; exact hb
        have hps : Within a b data2
              (if (wb && wp && decide (hint = SortedHint.increasingHint)) = true then
                partialInsertionSort less data2 a b else (data2, false)).1 ∧
            ((if (wb && wp && decide (hint = SortedHint.increasingHint)) = true then
                partialInsertionSort less data2 a b else (data2, false)).2 = true →
              SortedOn rank (if (wb && wp && decide (hint = SortedHint.increasingHint)) = true then
                partialInsertionSort less data2 a b else (data2, false)).1 a b) := by
          split
          · exact partialInsertionSort_spec less rank hless data2 a b (by omega) hb2
              (hw12.leftBound rank hlb)
          · exact ⟨Within.refl _ _ _, fun h => by cases h⟩
        generalize (if (wb && wp && decide (hint = SortedHint.increasingHint)) = true then
          partialInsertionSort less data2 a b else (data2, false)) = ps at hps ⊢
        obtain ⟨hw3, hsorted⟩ := hps
        have hw13 : Within a b data ps.1 := hw12.trans hw3
        have hb3 : b ≤ ps.1.length := by rw [hw13.len]; exact hb
        have hlb3 : LeftBound rank ps.1 a b := hw13.leftBound rank hlb
        split
        · rename_i hdone
          exact ⟨hw13, hsorted hdone⟩
        · split
          · rename_i hc
            rw [Bool.and_eq_true, decide_eq_true_eq, Bool.not_eq_true',
              lessAt_eq less rank hless ps.1 (a - 1) pivot (by omega) (by omega),
              decide_eq_false_iff_not] at hc
            obtain ⟨e1, e2, e3, e4⟩ := partitionEqual_spec less rank hless ps.1 a b pivot
              (by omega) hb3 hpiv.1 hpiv.2
              (by
                intro q hq1 hq2
                have := hlb3 (a - 1) q (by omega) hq1 hq2
                omega)
            generalize partitionEqual less ps.1 a b pivot = pe at e1 e2 e3 e4 ⊢
            have hw14 : Within a b data pe.1 := hw13.trans e1
            obtain ⟨r1, r2⟩ := ih pe.1 pe.2 b limit1 wb wp e3 (by rw [hw14.len]; exact hb)
              (by omega)
              (by
                intro p q hp hq1 hq2
                by_cases hpa : p < a
                · exact (hw14.leftBound rank hlb) p q hpa (by omega) hq2
                · exact e4 p q (by omega) hp (by omega) hq2)
            refine ⟨hw14.trans (r1.mono (by omega) (le_refl _)), ?_⟩
            intro p q hp hpq hq
            by_cases hpm : pe.2 ≤ p
            · exact r2 p q hpm hpq hq
            · rw [r1.rankAt_out rank p (Or.inl (by omega))]
              by_cases hqm : pe.2 ≤ q
              · obtain ⟨q1, h1, h2, e⟩ := r1.rankAt_img rank q hqm hq
                rw [e]
                exact e4 p q1 hp (by omega) (by omega) h2
              · rw [r1.rankAt_out rank q (Or.inl (by omega))]
                exact e4 p q hp (by omega) (by omega) hq
          · obtain ⟨t1, t2, t3, t4, t5⟩ := partition_spec less rank hless ps.1 a b pivot
              (by omega) hb3 hpiv.1 hpiv.2
            generalize partition less ps.1 a b pivot = pt at t1 t2 t3 t4 t5 ⊢
            have hw14 : Within a b data pt.1 := hw13.trans t1
            have hb4 : b ≤ pt.1.length := by rw [hw14.len]; exact hb
            have hlb4 : LeftBound rank pt.1 a b := hw14.leftBound rank hlb
            generalize hmid : pt.2.1 = mid at t2 t3 t4 t5 ⊢
            split
            · obtain ⟨r1, r2⟩ := ih pt.1 a mid limit1 true true t2 (by omega) (by omega)
                (fun p q hp hq1 hq2 => hlb4 p q hp hq1 (by omega))
              generalize pdqsort less fuel pt.1 a mid limit1 true true = res1 at r1 r2 ⊢
              obtain ⟨r3, r4⟩ := ih res1 (mid + 1) b limit1
                (decide ((b - a) / 8 ≤ mid - a)) pt.2.2 (by omega) (by rw [r1.len]; exact hb4)
                (by omega)
                (by
                  intro p q hp hq1 hq2
                  rw [r1.rankAt_out rank q (Or.inr (by omega))]
                  by_cases hpa : p < a
                  · rw [r1.rankAt_out rank p (Or.inl hpa)]
                    exact hlb4 p q hpa (by omega) hq2
                  · by_cases hpm : p = mid
                    · rw [r1.rankAt_out rank p (Or.inr (by omega)), hpm]
                      exact t5 q (by omega) hq2
                    · obtain ⟨p1, h1, h2, e⟩ := r1.rankAt_img rank p (by omega) (by omega)
                      rw [e]
                      exact le_trans (le_of_lt (t4 p1 h1 h2)) (t5 q (by omega) hq2))
              refine ⟨hw14.trans ((r1.mono (le_refl _) (by omega)).trans
                (r3.mono (by omega) (le_refl _))), ?_⟩
              apply SortedOn.around_pivot rank pt.1 _ a mid b t4 t5
              · rw [r3.rankAt_out rank mid (Or.inl (by omega)),
                  r1.rankAt_out rank mid (Or.inr (le_refl _))]
              · intro p hp1 hp2
                obtain ⟨p1, h1, h2, e⟩ := r1.rankAt_img rank p hp1 hp2
                exact ⟨p1, h1, h2, by rw [r3.rankAt_out rank p (Or.inl (by omega)), e]⟩
              · intro q hq1 hq2
                obtain ⟨q1, h1, h2, e⟩ := r3.rankAt_img rank q (by omega) hq2
                exact ⟨q1, by omega, h2, by rw [e, r1.rankAt_out rank q1 (Or.inr (by omega))]⟩
              · exact SortedOn.of_within_out rank r3 r2 (Or.inl (by omega))
              · exact r4
            · obtain ⟨r1, r2⟩ := ih pt.1 (mid + 1) b limit1 true true (by omega) hb4 (by omega)
                (by
                  intro p q hp hq1 hq2
                  by_cases hpa : p < a
                  · exact hlb4 p q hpa (by omega) hq2
                  · by_cases hpm : p = mid
                    · rw [hpm]; exact t5 q (by omega) hq2
                    · exact le_trans (le_of_lt (t4 p (by omega) (by omega))) (t5 q (by omega) hq2))
              generalize pdqsort less fuel pt.1 (mid + 1) b limit1 true true = res1 at r1 r2 ⊢
              obtain ⟨r3, r4⟩ := ih res1 a mid limit1
                (decide ((b - a) / 8 ≤ b - mid)) pt.2.2 t2 (by rw [r1.len]; omega)
                (by omega)
                (by
                  intro p q hp hq1 hq2
                  rw [r1.rankAt_out rank q (Or.inl (by omega)),
                    r1.rankAt_out rank p (Or.inl (by omega))]
                  exact hlb4 p q hp hq1 (by omega))
              refine ⟨hw14.trans ((r1.mono (by omega) (le_refl _)).trans
                (r3.mono (le_refl _) (by omega))), ?_⟩
              apply SortedOn.around_pivot rank pt.1 _ a mid b t4 t5
              · rw [r3.rankAt_out rank mid (Or.inr (le_refl _)),
                  r1.rankAt_out rank mid (Or.inl (by omega))]
              · intro p hp1 hp2
                obtain ⟨p1, h1, h2, e⟩ := r3.rankAt_img rank p hp1 hp2
                exact ⟨p1, h1, h2, by rw [e, r1.rankAt_out rank p1 (Or.inl (by omega))]⟩
              · intro q hq1 hq2
                obtain ⟨q1, h1, h2, e⟩ := r1.rankAt_img rank q (by omega) hq2
                exact ⟨q1, by omega, h2, by rw [r3.rankAt_out rank q (Or.inr (by omega)), e]⟩
              · exact r4
              · exact SortedOn.of_within_out rank r3 r2 (Or.inr (by omega))

/-- The function `sort.Slice` keeps its contract: for an order `less` that compares a rank
of the elements, its result is a permutation of its argument in which no element is
`less` than an earlier one. -/
theorem goSortSlice_sorts (less : α → α → Bool) (rank : α → Int)
    (hless : ∀ x y, less x y = decide (rank x < rank y)) (data : List α) :
    Sorts less data (goSortSlice less data) := by
  unfold goSortSlice
  obtain ⟨w, s⟩ := pdqsort_spec less rank hless (data.length + 1) data 0 data.length
    (bitsLen data.length) true true (Nat.zero_le _) (le_refl _) (by omega)
    (fun p q hp _ _ => by omega)
  generalize pdqsort less (data.length + 1) data 0 data.length (bitsLen data.length) true true
    = res at w s ⊢
  refine ⟨w.perm, ?_⟩
  rw [List.pairwise_iff_getElem]
  intro i j hi hj hij
  have := s i j (Nat.zero_le _) (le_of_lt hij) (by rw [← w.len]; exact hj)
  unfold rankAt at this
  rw [List.getElem?_eq_getElem hi, List.getElem?_eq_getElem hj] at this
  rw [hless, decide_eq_false_iff_not]
  simp only at this
  omega

end PdqsortProofs

/-! ## Ranking: proofs -/

theorem scanBinlogs_eq (rows : List (Except String (String × Int))) :
    ∀ logs : List BinlogRec, scanBinlogs rows logs = logs ++ rows.filterMap binlogOfRow := by
  induction rows with
  | nil => intro logs; simp [scanBinlogs]
  | cons r rows ih =>
    intro logs
    match r with
    | Except.ok (name, size) => simp [scanBinlogs, ih, binlogOfRow]
    | Except.error e => simp [scanBinlogs, ih, binlogOfRow]

theorem renderedBinlogs_eq_take (limit : Int) :
    ∀ (logs : List BinlogRec) (i : Nat),
      renderedBinlogs limit logs i = logs.take (limit.toNat - i) := by
  intro logs
  induction logs with
  | nil => intro i; simp [renderedBinlogs]
  | cons x rest ih =>
    intro i
    by_cases h : (i : Int) ≥ limit
    · have h0 : limit.toNat - i = 0 := by omega
      simp [renderedBinlogs, h, h0]
    · have h1 : limit.toNat - i = (limit.toNat - (i + 1)) + 1 := by omega
      rw [renderedBinlogs, if_neg h, ih, h1, List.take_succ_cons]

theorem renderBinlogs_eq_foldl (lib : Lib) (limit : Int) :
    ∀ (logs : List BinlogRec) (i : Nat) (result : String),
      renderBinlogs lib limit logs i result
        = (renderedBinlogs limit logs i).foldl (fun r x => r ++ binlogLine lib x) result := by
  intro logs
  induction logs with
  | nil => intro i result; rfl
  | cons x rest ih =>
    intro i result
    by_cases h : (i : Int) ≥ limit
    · simp [renderBinlogs, renderedBinlogs, h]
    · rw [renderBinlogs, if_neg h, renderedBinlogs, if_neg h, ih, List.foldl_cons]

theorem renderedDbTables_eq_take :
    ∀ (dbTables : List DbTableRec) (i : Nat),
      renderedDbTables dbTables i = dbTables.take (15 - i) := by
  intro dbTables
  induction dbTables with
  | nil => intro i; simp [renderedDbTables]
  | cons x rest ih =>
    intro i
    by_cases h : i ≥ 15
    · have h0 : 15 - i = 0 := by omega
      simp [renderedDbTables, h, h0]
    · have h1 : 15 - i = (15 - (i + 1)) + 1 := by omega
      rw [renderedDbTables, if_neg h, ih, h1, List.take_succ_cons]

theorem renderDbTables_eq_foldl :
    ∀ (dbTables : List DbTableRec) (i : Nat) (tableCounts : String),
      renderDbTables dbTables i tableCounts
        = (renderedDbTables dbTables i).foldl (fun r x => r ++ dbTableLine x) tableCounts := by
  intro dbTables
  induction dbTables with
  | nil => intro i result; rfl
  | cons x rest ih =>
    intro i result
    by_cases h : i ≥ 15
    · simp [renderDbTables, renderedDbTables, h]
    · rw [renderDbTables, if_neg h, renderedDbTables, if_neg h, ih, List.foldl_cons]

/-- The first `n` elements of a sorted permutation: their number, and nothing left out
comes before one of them in the order. -/
theorem take_of_sorts {α : Type} (less : α → α → Bool) (input output : List α) (n : Nat)
    (h : Sorts less input output) :
    (output.take n).length = min n input.length ∧
      ∀ x ∈ output.take n, ∀ y ∈ output.drop n, less y x = false := by
  constructor
  · rw [List.length_take, h.1.length_eq]
  · intro x hx y hy
    have hp := h.2
    rw [← List.take_append_drop n output, List.pairwise_append] at hp
    exact hp.2.2 x hx y hy

theorem take_min_length {α : Type} (l : List α) (n m : Nat) (h : l.length = m) :
    l.take (min n m) = l.take n := by
  by_cases hn : n ≤ m
  · rw [Nat.min_eq_left hn]
  · have hm : m ≤ n := by omega
    rw [Nat.min_eq_right hm, List.take_of_length_le (by omega), List.take_of_length_le (by omega)]

theorem binlogLess_false (x y : BinlogRec) : binlogLess y x = false ↔ x.Size ≥ y.Size := by
  simp [binlogLess]

theorem dbTableLess_false (x y : DbTableRec) : dbTableLess y x = false ↔ x.Count ≥ y.Count := by
  simp [dbTableLess]

theorem binlogLess_rank (x y : BinlogRec) :
    binlogLess x y = decide ((fun r : BinlogRec => - r.Size) x < (fun r : BinlogRec => - r.Size) y) := by
  simp [binlogLess]

theorem dbTableLess_rank (x y : DbTableRec) :
    dbTableLess x y
      = decide ((fun r : DbTableRec => - r.Count) x < (fun r : DbTableRec => - r.Count) y) := by
  simp [dbTableLess]

theorem sorts_binlogs (lib : Lib) (hsort : SortContract lib)
    (rows : List (Except String (String × Int))) :
    Sorts binlogLess (scanBinlogs rows []) (sortedBinlogs lib rows) :=
  hsort BinlogRec binlogLess (fun r => - r.Size) binlogLess_rank _

theorem sorts_dbTables (lib : Lib) (hsort : SortContract lib)
    (tableCount : String → Except String Int) (rows : List (Except String String)) :
    Sorts dbTableLess (scanDatabases tableCount rows []) (sortedDbTables lib tableCount rows) :=
  hsort DbTableRec dbTableLess (fun r => - r.Count) dbTableLess_rank _

/-- The pdqsort of Go 1.19 and later keeps the contract of `sort.Slice`. -/
theorem withGoSort_sortContract (lib : Lib) : SortContract (withGoSort lib) :=
  fun _ less rank hless data => goSortSlice_sorts less rank hless data

theorem evalLib_sortContract : SortContract evalLib :=
  fun _ less rank hless data => goSortSlice_sorts less rank hless data

/-- C4. Let `sort.Slice` keep its contract (as the pdqsort of Go 1.19 and later does,
`withGoSort_sortContract`), and let `L` be the records that the row loop of
`getLargestBinlogs` scans successfully. Then for every limit `N ≥ 0` the records that
`getLargestBinlogs(N)` renders are, in output order, the first `min(N, len(L))` elements
of a permutation `P` of `L` sorted in non-increasing size order: exactly that many are
rendered, no omitted record is larger than a rendered one, and the returned text is the
concatenation of their display lines. The same holds, with `N = 15`, for the records
that `getDatabaseAndTableCounts` renders into `tableCounts`. -/
theorem topN_ranking (lib : Lib) (hsort : SortContract lib)
    (rows : List (Except String (String × Int))) (N : Nat)
    (dbRows : List (Except String String)) (tableCount : String → Except String Int) :
    (scanBinlogs rows [] = rows.filterMap binlogOfRow ∧
      ∃ P : List BinlogRec, P.Perm (scanBinlogs rows []) ∧
        P.Pairwise (fun x y => x.Size ≥ y.Size) ∧
        largestBinlogs lib rows N = P.take (min N (scanBinlogs rows []).length) ∧
        (largestBinlogs lib rows N).length = min N (scanBinlogs rows []).length ∧
        (∀ x ∈ largestBinlogs lib rows N,
          ∀ y ∈ P.drop (min N (scanBinlogs rows []).length), y.Size ≤ x.Size) ∧
        (getLargestBinlogs lib (Except.ok rows) N).1
          = (largestBinlogs lib rows N).foldl (fun r x => r ++ binlogLine lib x) "") ∧
    (∃ Q : List DbTableRec, Q.Perm (scanDatabases tableCount dbRows []) ∧
        Q.Pairwise (fun x y => x.Count ≥ y.Count) ∧
        topDbTables lib tableCount dbRows
          = Q.take (min 15 (scanDatabases tableCount dbRows []).length) ∧
        (topDbTables lib tableCount dbRows).length
          = min 15 (scanDatabases tableCount dbRows []).length ∧
        (∀ x ∈ topDbTables lib tableCount dbRows,
          ∀ y ∈ Q.drop (min 15 (scanDatabases tableCount dbRows []).length),
            y.Count ≤ x.Count) ∧
        (getDatabaseAndTableCounts lib (Except.ok dbRows) tableCount).2.1
          = stringsTrimSpace
              ((topDbTables lib tableCount dbRows).foldl (fun r x => r ++ dbTableLine x) "")) := by
  have hbin := sorts_binlogs lib hsort rows
  have hdb := sorts_dbTables lib hsort tableCount dbRows
  have hbl := hbin.1.length_eq
  have hdl := hdb.1.length_eq
  have htake : largestBinlogs lib rows N = (sortedBinlogs lib rows).take N := by
    rw [largestBinlogs, renderedBinlogs_eq_take, Nat.sub_zero, Int.toNat_ofNat]
  have htakeDb : topDbTables lib tableCount dbRows
      = (sortedDbTables lib tableCount dbRows).take 15 := by
    rw [topDbTables, renderedDbTables_eq_take, Nat.sub_zero]
  constructor
  · refine ⟨by simpa using scanBinlogs_eq rows [], sortedBinlogs lib rows, hbin.1,
      hbin.2.imp (fun h => (binlogLess_false _ _).1 h), ?_, ?_, ?_, ?_⟩
    · rw [take_min_length _ _ _ hbl, htake]
    · rw [htake]; exact (take_of_sorts _ _ _ _ hbin).1
    · rw [htake]
      intro x hx y hy
      refine (binlogLess_false _ _).1 ((take_of_sorts _ _ _ N hbin).2 x hx y ?_)
      by_cases hn : N ≤ (scanBinlogs rows []).length
      · rwa [Nat.min_eq_left hn] at hy
      · rw [Nat.min_eq_right (by omega), List.drop_of_length_le (by omega)] at hy
        simp at hy
    · simp only [getLargestBinlogs, largestBinlogs]
      exact renderBinlogs_eq_foldl lib N _ 0 ""
  · refine ⟨sortedDbTables lib tableCount dbRows, hdb.1,
      hdb.2.imp (fun h => (dbTableLess_false _ _).1 h), ?_, ?_, ?_, ?_⟩
    · rw [take_min_length _ _ _ hdl, htakeDb]
    · rw [htakeDb]; exact (take_of_sorts _ _ _ _ hdb).1
    · rw [htakeDb]
      intro x hx y hy
      refine (dbTableLess_false _ _).1 ((take_of_sorts _ _ _ 15 hdb).2 x hx y ?_)
      by_cases hn : 15 ≤ (scanDatabases tableCount dbRows []).length
      · rwa [Nat.min_eq_left hn] at hy
      · rw [Nat.min_eq_right (by omega), List.drop_of_length_le (by omega)] at hy
        simp at hy
    · simp only [getDatabaseAndTableCounts, topDbTables]
      rw [renderDbTables_eq_foldl]

/-- C4, applied with the pdqsort of Go 1.19 as `sort.Slice` to the three binlogs of
`tiedBinlogRows` (and a row whose scan fails) with limit 2, and to the schemas of
`sampleDatabaseRows`: two binlogs are rendered, the two of the largest size, and the
three schemas that are not system schemas. -/
theorem topN_ranking_witness :
    largestBinlogs evalLib tiedBinlogRows 2
      = [⟨"mysql-bin.000002", 5242880⟩, ⟨"mysql-bin.000003", 5242880⟩] ∧
    (largestBinlogs evalLib tiedBinlogRows 2).length = min 2 (scanBinlogs tiedBinlogRows []).length ∧
    topDbTables evalLib sampleTableCount sampleDatabaseRows
      = [⟨"shop", 12⟩, ⟨"blog", 3⟩, ⟨"wiki", 3⟩] := by
  have h := topN_ranking evalLib evalLib_sortContract tiedBinlogRows 2 sampleDatabaseRows
    sampleTableCount
  exact ⟨by decide, h.1.2.choose_spec.2.2.2.1, by decide⟩

theorem chain_of_sorted_take {α : Type} (less : α → α → Bool) (key : α → Int)
    (hkey : ∀ x y, less y x = false ↔ key x ≥ key y) (input output : List α) (n : Nat)
    (h : Sorts less input output) :
    ((output.take n).map key).Chain' (fun a b => a ≥ b) ∧
      ((input.map key).Nodup → ((output.take n).map key).Chain' (fun a b => a > b)) := by
  have hge : ((output.take n).map key).Pairwise (fun a b => a ≥ b) := by
    rw [List.pairwise_map]
    exact (h.2.take).imp (fun hxy => (hkey _ _).1 hxy)
  refine ⟨hge.chain', fun hnd => ?_⟩
  have hnd2 : ((output.take n).map key).Nodup := by
    have h1 : (output.map key).Nodup := ((h.1.map key).nodup_iff).2 hnd
    exact h1.sublist ((List.take_sublist n output).map key)
  have hgt : ((output.take n).map key).Pairwise (fun a b => a > b) := by
    refine (hge.and hnd2).imp ?_
    intro a b hab
    exact lt_of_le_of_ne hab.1 (fun e => hab.2 e.symm)
  exact hgt.chain'

/-- C5, as the code has it. When `sort.Slice` keeps its contract (as the pdqsort of Go
1.19 and later does, `withGoSort_sortContract`), the keys of the records rendered by `getLargestBinlogs` (sizes) and by
`getDatabaseAndTableCounts` (table counts), taken in output order, never increase: each
rendered key is greater than or equal to the next one; and they are strictly descending
when no two scanned records have the same key. -/
theorem ranking_keys_non_increasing (lib : Lib) (hsort : SortContract lib)
    (rows : List (Except String (String × Int))) (N : Nat)
    (dbRows : List (Except String String)) (tableCount : String → Except String Int) :
    (((largestBinlogs lib rows N).map BinlogRec.Size).Chain' (fun a b => a ≥ b) ∧
      (((scanBinlogs rows []).map BinlogRec.Size).Nodup →
        ((largestBinlogs lib rows N).map BinlogRec.Size).Chain' (fun a b => a > b))) ∧
    (((topDbTables lib tableCount dbRows).map DbTableRec.Count).Chain' (fun a b => a ≥ b) ∧
      (((scanDatabases tableCount dbRows []).map DbTableRec.Count).Nodup →
        ((topDbTables lib tableCount dbRows).map DbTableRec.Count).Chain' (fun a b => a > b))) := by
  have hbin := sorts_binlogs lib hsort rows
  have hdb := sorts_dbTables lib hsort tableCount dbRows
  have htake : largestBinlogs lib rows N = (sortedBinlogs lib rows).take N := by
    rw [largestBinlogs, renderedBinlogs_eq_take, Nat.sub_zero, Int.toNat_ofNat]
  have htakeDb : topDbTables lib tableCount dbRows
      = (sortedDbTables lib tableCount dbRows).take 15 := by
    rw [topDbTables, renderedDbTables_eq_take, Nat.sub_zero]
  rw [htake, htakeDb]
  exact ⟨chain_of_sorted_take binlogLess BinlogRec.Size binlogLess_false _ _ N hbin,
    chain_of_sorted_take dbTableLess DbTableRec.Count dbTableLess_false _ _ 15 hdb⟩

/-- C5, applied with the pdqsort of Go 1.19 as `sort.Slice` to the three binlogs of
`tiedBinlogRows` and the three schemas of `sampleDatabaseRows`: the rendered keys never
increase. -/
theorem ranking_keys_non_increasing_witness :
    ((largestBinlogs evalLib tiedBinlogRows 15).map BinlogRec.Size).Chain' (fun a b => a ≥ b) ∧
    ((topDbTables evalLib sampleTableCount sampleDatabaseRows).map DbTableRec.Count).Chain'
      (fun a b => a ≥ b) :=
  have h := ranking_keys_non_increasing evalLib evalLib_sortContract tiedBinlogRows 15
    sampleDatabaseRows sampleTableCount
  ⟨h.1.1, h.2.1⟩

/-- C5 as stated fails: of the three binlogs of `tiedBinlogRows` two have the same size;
all three are rendered, with keys 5242880, 5242880, 1048576, and the first key is not
strictly greater than the second. -/
theorem ranking_keys_not_strictly_descending :
    (largestBinlogs evalLib tiedBinlogRows 15).map BinlogRec.Size
        = [5242880, 5242880, 1048576] ∧
      ¬ ((largestBinlogs evalLib tiedBinlogRows 15).map BinlogRec.Size).Chain'
        (fun a b => a > b) := by
  have e : (largestBinlogs evalLib tiedBinlogRows 15).map BinlogRec.Size
      = [5242880, 5242880, 1048576] := by decide
  refine ⟨e, fun h => ?_⟩
  rw [e] at h
  exact absurd (List.chain'_cons.1 h).1 (by decide)

/-! ### Insertion sort keeps ties in order -/

theorem lessAt_true {α : Type} (less : α → α → Bool) (data : List α) (i j : Nat)
    (h : lessAt less data i j = true) :
    ∃ x y, data[i]? = some x ∧ data[j]? = some y ∧ less x y = true := by
  unfold lessAt at h
  split at h
  · exact ⟨_, _, by assumption, by assumption, h⟩
  · cases h

theorem swap_adjacent {α : Type} (pre : List α) (x y : α) (post : List α) :
    swap (pre ++ x :: y :: post) (pre.length + 1) pre.length = pre ++ y :: x :: post := by
  induction pre with
  | nil => simp [swap]
  | cons a pre ih =>
    simp only [List.cons_append, List.length_cons]
    rw [swap_cons_succ, ih]

theorem split_at_adjacent {α : Type} (data : List α) (j : Nat) (x y : α)
    (hx : data[j]? = some x) (hy : data[j + 1]? = some y) :
    ∃ pre post, data = pre ++ x :: y :: post ∧ pre.length = j := by
  induction data generalizing j with
  | nil => simp at hx
  | cons a data ih =>
    cases j with
    | zero =>
      simp at hx
      subst hx
      cases data with
      | nil => simp at hy
      | cons b data =>
        simp at hy
        subst hy
        exact ⟨[], data, rfl, rfl⟩
    | succ j =>
      simp at hx hy
      obtain ⟨pre, post, hd, hl⟩ := ih j hx hy
      exact ⟨a :: pre, post, by rw [hd]; rfl, by simp [hl]⟩

theorem filter_swap_adjacent {α : Type} (p : α → Bool) (pre : List α) (x y : α) (post : List α)
    (h : ¬ (p x = true ∧ p y = true)) :
    (pre ++ y :: x :: post).filter p = (pre ++ x :: y :: post).filter p := by
  simp only [List.filter_append, List.filter_cons]
  cases hx : p x <;> cases hy : p y <;> simp_all

theorem filter_insertionInner {α : Type} (less : α → α → Bool) (p : α → Bool)
    (hless : ∀ x y, less x y = true → ¬ (p x = true ∧ p y = true)) (a : Nat) :
    ∀ (j : Nat) (data : List α), (insertionInner less a j data).filter p = data.filter p := by
  intro j
  induction j with
  | zero => intro data; rfl
  | succ j ih =>
    intro data
    rw [insertionInner]
    split
    · rename_i hc
      rw [Bool.and_eq_true] at hc
      obtain ⟨y, x, hy, hx, hyx⟩ := lessAt_true less data (j + 1) j hc.2
      obtain ⟨pre, post, hd, hl⟩ := split_at_adjacent data j x y hx hy
      rw [ih]
      subst hl
      rw [hd, swap_adjacent]
      exact filter_swap_adjacent p pre x y post (fun hxy => hless y x hyx ⟨hxy.2, hxy.1⟩)
    · rfl

theorem filter_insertionOuter {α : Type} (less : α → α → Bool) (p : α → Bool)
    (hless : ∀ x y, less x y = true → ¬ (p x = true ∧ p y = true)) (a b : Nat) :
    ∀ (fuel i : Nat) (data : List α),
      (insertionOuter less a b fuel i data).filter p = data.filter p := by
  intro fuel
  induction fuel with
  | zero => intro i data; rfl
  | succ fuel ih =>
    intro i data
    rw [insertionOuter]
    split
    · rw [ih, filter_insertionInner less p hless]
    · rfl

theorem goSortSlice_short {α : Type} (less : α → α → Bool) (data : List α)
    (h : data.length ≤ 12) :
    goSortSlice less data = insertionSort less data 0 data.length := by
  unfold goSortSlice
  rw [pdqsort, if_pos (by omega)]

/-- On a slice of at most 12 elements `sort.Slice` is an insertion sort, which keeps
elements of equal key in their order. -/
theorem goSortSlice_ties {α : Type} (less : α → α → Bool) (key : α → Int)
    (hless : ∀ x y, less x y = true → key x ≠ key y) (data : List α) (h : data.length ≤ 12)
    (k : Int) :
    (goSortSlice less data).filter (fun x => decide (key x = k))
      = data.filter (fun x => decide (key x = k)) := by
  rw [goSortSlice_short less data h, insertionSort]
  apply filter_insertionOuter
  intro x y hxy hk
  simp only [decide_eq_true_eq] at hk
  exact hless x y hxy (hk.1.trans hk.2.symm)

/-- C6, as the code has it. With the `sort.Slice` of Go 1.19 and later, which sorts a
slice of at most 12 elements by insertion: when at most 12 binlog records are scanned,
rendered records of equal size appear in the order in which their rows were enumerated;
and likewise, when at most 12 schemas are counted, for rendered schemas of equal table
count. -/
theorem ranking_ties_in_order_upto_12 (lib : Lib)
    (rows : List (Except String (String × Int))) (limit : Int)
    (dbRows : List (Except String String)) (tableCount : String → Except String Int) :
    ((scanBinlogs rows []).length ≤ 12 →
      TiesInOrder BinlogRec.Size (scanBinlogs rows [])
        (largestBinlogs (withGoSort lib) rows limit)) ∧
    ((scanDatabases tableCount dbRows []).length ≤ 12 →
      TiesInOrder DbTableRec.Count (scanDatabases tableCount dbRows [])
        (topDbTables (withGoSort lib) tableCount dbRows)) := by
  constructor
  · intro hbin k
    rw [largestBinlogs, renderedBinlogs_eq_take, sortedBinlogs]
    have h := goSortSlice_ties binlogLess BinlogRec.Size
      (by intro x y hxy; simp [binlogLess] at hxy; omega) (scanBinlogs rows []) hbin k
    show List.Sublist (List.filter _ (List.take _ (goSortSlice binlogLess (scanBinlogs rows []))))
      _
    rw [← h]
    exact (List.take_sublist _ _).filter _
  · intro hdb k
    rw [topDbTables, renderedDbTables_eq_take, sortedDbTables]
    have h := goSortSlice_ties dbTableLess DbTableRec.Count
      (by intro x y hxy; simp [dbTableLess] at hxy; omega)
      (scanDatabases tableCount dbRows []) hdb k
    show List.Sublist
      (List.filter _ (List.take _ (goSortSlice dbTableLess (scanDatabases tableCount dbRows []))))
      _
    rw [← h]
    exact (List.take_sublist _ _).filter _

/-- C6, applied to the three binlogs of `tiedBinlogRows`, two of them of the same size,
and to the three schemas of `sampleDatabaseRows`, two of them with the same table count:
the tied records are rendered in the order of their rows. -/
theorem ranking_ties_in_order_upto_12_witness :
    TiesInOrder BinlogRec.Size (scanBinlogs tiedBinlogRows [])
        (largestBinlogs (withGoSort evalLib) tiedBinlogRows 15) ∧
      TiesInOrder DbTableRec.Count (scanDatabases sampleTableCount sampleDatabaseRows [])
        (topDbTables (withGoSort evalLib) sampleTableCount sampleDatabaseRows) :=
  ⟨(ranking_ties_in_order_upto_12 evalLib tiedBinlogRows 15 sampleDatabaseRows
      sampleTableCount).1 (by decide),
    (ranking_ties_in_order_upto_12 evalLib tiedBinlogRows 15 sampleDatabaseRows
      sampleTableCount).2 (by decide)⟩

/-- C6 as stated fails: of the thirteen binlogs a .. m of `thirteenBinlogRows`, twelve
have size 1 and the last has size 2. With the `sort.Slice` of Go 1.19 and later all
thirteen are rendered (limit 15) in the order m g c d e f a h i j k l b: the records a
and c, of equal size, are rendered in the reverse of the order of their rows. -/
theorem ranking_ties_reordered :
    (scanBinlogs thirteenBinlogRows []).map BinlogRec.Name
        = ["a", "b", "c", "d", "e", "f", "g", "h", "i", "j", "k", "l", "m"] ∧
      (largestBinlogs evalLib thirteenBinlogRows 15).map BinlogRec.Name
        = ["m", "g", "c", "d", "e", "f", "a", "h", "i", "j", "k", "l", "b"] ∧
      ¬ TiesInOrder BinlogRec.Size (scanBinlogs thirteenBinlogRows [])
        (largestBinlogs evalLib thirteenBinlogRows 15) := by
  refine ⟨by decide, by decide, fun h => ?_⟩
  exact absurd (h 1) (by decide)

end MariaDBConsole
